import Mathlib

/-!
# Verification of `truth.py` (Pyxxil/TruthTableGenerator)

A shallow embedding of the two components of `truth.py`:

* `ExpressionBuilder` (random boolean-expression generator working by
  positional surgery on a token list), and
* `Evaluator` (exhaustive truth-table evaluation of an expression string).

Modelling conventions:

* Python lists of tokens become `List String`; `list.insert(i, x)` becomes
  `pyInsert` (which, like Python, clamps an index beyond the end to an
  append); `list.index(x)` becomes `List.indexOf` (every `.index` call in
  the program is performed on a list that provably contains the element,
  so the out-of-range behaviour of the model is never exercised under the
  validity hypotheses used in the theorems).
* Python dicts with string keys become association lists whose key order
  mirrors Python's insertion order; `sorted(..., key=...)` becomes a
  stable insertion sort.
* The results of the `random` draws are passed in as parameters:
  `vars` / `operators` are the already-shuffled layouts,
  `notVar` is the result of `random.choice(self.vars)`,
  `notPrec` the result of `random.randint(0, 1)`, and each loop iteration
  of the extra-parenthesis loop receives one natural number `c`; the
  element chosen by `random.choice(lst)` is modelled as `lst[c % len lst]`,
  which ranges over exactly the elements `random.choice` can return and
  which fails exactly when `random.choice` raises `IndexError` (empty
  list).  Fallible steps return `Option`.
* Python's `eval` of the (rewritten) expression string together with the
  final `"{1:^{0:d}}".format(...)` rendering is modelled by an
  uninterpreted oracle parameter `pyeval`; none of the claims proved here
  depend on the value it returns.
-/

namespace Truth

/-- Python's `list.insert i x`: insert `x` before position `i`, clamping
`i` to the length of the list (an index past the end appends). -/
def pyInsert (i : Nat) (x : α) (l : List α) : List α :=
  l.take i ++ x :: l.drop i

/-- Weight of a token for the parenthesis depth count: `(` opens, `)`
closes, everything else is neutral. -/
def tokWeight (t : String) : Int :=
  if t = "(" then 1 else if t = ")" then -1 else 0

/-- Running parenthesis count of a token sequence. -/
def weight (e : List String) : Int :=
  (e.map tokWeight).sum

/-- Balanced parentheses: the running depth count of `(`/`)` never goes
negative on any prefix and ends at zero. -/
def Balanced (e : List String) : Prop :=
  weight e = 0 ∧ ∀ n, n < e.length → 0 ≤ weight (e.take n)

/-- A matched `(` ... `)` pair spans the entire token sequence: the total
weight is zero while every proper non-empty prefix has positive weight
(so the `(` at index 0 is matched exactly by the `)` at the last index). -/
def FullSpanGroup (e : List String) : Prop :=
  2 ≤ e.length ∧ weight e = 0 ∧
    ∀ n, n < e.length → 0 < n → 1 ≤ weight (e.take n)

/-- A token list containing no parenthesis tokens. -/
def ParenFree (e : List String) : Prop :=
  ∀ t ∈ e, t ≠ "(" ∧ t ≠ ")"

instance (e : List String) : Decidable (Balanced e) := by
  unfold Balanced
  infer_instance

instance (e : List String) : Decidable (FullSpanGroup e) := by
  unfold FullSpanGroup
  infer_instance

/-- Dictionary read `d[k]` (every read in the program is of a present
key; the default is never exercised under the hypotheses used below). -/
def lookupD (d : List (String × Nat)) (k : String) : Nat :=
  (d.lookup k).getD 0

/-- Dictionary write `d[k] = n` for a key already present: the value is
updated in place and the insertion order of the dict is unchanged. -/
def setSnd (d : List (String × Nat)) (k : String) (n : Nat) : List (String × Nat) :=
  d.map fun kv => if kv.1 = k then (kv.1, n) else kv

/-- Ordering used by `sorted(..., key=lambda kv: kv[1])`. -/
def sndLe (a b : String × Nat) : Prop :=
  a.2 ≤ b.2

instance : DecidableRel sndLe := fun a b => Nat.decLe a.2 b.2

instance : IsTotal (String × Nat) sndLe :=
  ⟨fun a b => Nat.le_total a.2 b.2⟩

instance : IsTrans (String × Nat) sndLe :=
  ⟨fun _ _ _ h h' => Nat.le_trans h h'⟩

/-- `ExpressionBuilder.__generate_indices_of_variables` (lines 126-132):
the dict mapping each variable to its current index in the expression,
in ascending index order. -/
def generate_indices_of_variables (vars e : List String) :
    List (String × Nat) :=
  List.insertionSort sndLe (vars.map fun v => (v, List.indexOf v e))

/-- `ExpressionBuilder.__generate_parentheses_positions` (lines 158-164):
choose a left variable among all but the last (in index order) and take
as right variable the one immediately following it.  `c` stands for the
draw of `random.choice`; the empty-candidate case is the `IndexError` of
`random.choice([])`. -/
def generate_parentheses_positions (parentheses : List (String × Nat))
    (c : Nat) : Option (String × String) :=
  let keys := (parentheses.map Prod.fst).dropLast
  if keys.isEmpty then none
  else
    let left := keys.getD (c % keys.length) ""
    let parens := parentheses
    let position := List.indexOf (left, lookupD parens left) parens
    some (left, (parens.getD (position + 1) ("", 0)).1)

/-- `ExpressionBuilder.__insert_parentheses` (lines 134-156). -/
def insert_parentheses (notVar : String) (parentheses : List (String × Nat))
    (left right : String) (e : List String) : List String :=
  let p1 := if right = notVar then
      setSnd parentheses right (lookupD parentheses right + 2)
    else parentheses
  let p2 := setSnd p1 right (lookupD p1 right + 1)
  if lookupD p2 left = 0 ∧ e.length - 1 ≤ lookupD p2 right then e
  else pyInsert (lookupD p2 left) "(" (pyInsert (lookupD p2 right) ")" e)

/-- One iteration of the extra-parenthesis-group loop in
`ExpressionBuilder.build` (lines 116-124). -/
def extra_group_step (vars : List String) (notVar : String) (c : Nat)
    (e : List String) : Option (List String) :=
  let ps := generate_indices_of_variables vars e
  let ps := setSnd ps notVar (lookupD ps notVar - 2)
  match generate_parentheses_positions ps c with
  | none => none
  | some (left, right) => some (insert_parentheses notVar ps left right e)

/-- Lines 88-91 of `build`: start from the shuffled vars and insert
`operator[i]` at position `2*i + 1`. -/
def interleave (vars operators : List String) : List String :=
  operators.enum.foldl (fun e io => pyInsert (2 * io.1 + 1) io.2 e) vars

/-- Lines 97-114 of `build`: close the parenthesis opened after `NOT`.
If the precedence draw is 0 (lowest), the `)` goes after the variable
following the negated one in index order (or at the very end when the
negated variable is the last); otherwise it goes three positions after
the `NOT` token. -/
def close_not (vars : List String) (notVar : String) (notPrec : Nat)
    (e : List String) : List String :=
  let parentheses := generate_indices_of_variables vars e
  if notPrec = 0 then
    let parens := parentheses
    let position := List.indexOf (notVar, lookupD parentheses notVar) parens
    if position = parens.length - 1 then e ++ [")"]
    else
      let right := (parens.getD (position + 1) ("", 0)).1
      pyInsert (lookupD parentheses right + 1) ")" e
  else
    pyInsert (List.indexOf "NOT" e + 3) ")" e

/-- The expression after lines 88-95 of `build`: the interleaved chain
with `NOT` inserted before the negated variable and `(` right after the
`NOT`. -/
def afterNot (vars operators : List String) (notVar : String) : List String :=
  let e := interleave vars operators
  let e := pyInsert (List.indexOf notVar e) "NOT" e
  pyInsert (List.indexOf "NOT" e + 1) "(" e

/-- `ExpressionBuilder.build` (lines 85-124).  `choices` carries one
`random.choice` draw per iteration of the extra-group loop, so
`choices.length` plays the role of `paren_count`. -/
def build (vars operators : List String) (notVar : String)
    (notPrec : Nat) (choices : List Nat) : Option (List String) :=
  let e := interleave vars operators
  let e := pyInsert (List.indexOf notVar e) "NOT" e
  let e := pyInsert (List.indexOf "NOT" e + 1) "(" e
  let e := close_not vars notVar notPrec e
  choices.foldlM (fun acc c => extra_group_step vars notVar c acc) e

/-- The state an `ExpressionBuilder` holds after construction. -/
structure Builder where
  paren_count : Nat
  vars : List String
  operators : List String
  not_expr : String × Nat

/-- `ExpressionBuilder.__init__` (lines 70-80): the `assert` on line 71
fails the construction unless `len(vars) == len(operators) + 1`.
The shuffled layouts and the two `NOT` draws are passed in as the
results of the `random` calls. -/
def init (vars operators : List String) (paren_count : Nat)
    (shuffledVars shuffledOps : List String) (notVar : String)
    (notPrec : Nat) : Option Builder :=
  if vars.length = operators.length + 1 then
    some { paren_count := paren_count, vars := shuffledVars,
           operators := shuffledOps, not_expr := (notVar, notPrec) }
  else none

/-- Validity of the inputs handed to the builder: the vars are
distinct identifiers, the chosen negation target is one of them, and no
variable or operator token collides with the reserved tokens `NOT`,
`(`, `)` that the builder inserts. -/
def ValidInput (vars operators : List String) (notVar : String) : Prop :=
  vars.Nodup ∧ notVar ∈ vars ∧
    "NOT" ∉ vars ∧ "NOT" ∉ operators ∧
    "(" ∉ vars ∧ "(" ∉ operators ∧
    ")" ∉ vars ∧ ")" ∉ operators ∧
    vars.length = operators.length + 1

instance (vars operators : List String) (notVar : String) :
    Decidable (ValidInput vars operators notVar) := by
  unfold ValidInput
  infer_instance

/-- The structural invariant maintained by `build` once the `NOT (` has
been inserted: the expression splits as `A ++ NOT ( notVar ++ B` where
the single `NOT` is immediately followed by `(` and then by the negated
variable's first occurrence. -/
def NotShape (notVar : String) (e : List String) : Prop :=
  ∃ A B, e = A ++ "NOT" :: "(" :: notVar :: B ∧
    "NOT" ∉ A ∧ "NOT" ∉ B ∧ notVar ∉ A

/-- Invariant of the extra-parenthesis loop. -/
def BuildInv (vars : List String) (notVar : String)
    (e : List String) : Prop :=
  Balanced e ∧ NotShape notVar e ∧ ∀ v ∈ vars, v ∈ e

/-! ## The evaluator -/

/-- A cell of a truth-table row: the integers `0`/`1` of the variable
columns, or the formatted result string stored under the key `" "`. -/
inductive Cell where
  | num (n : Nat)
  | str (s : String)
deriving DecidableEq, Repr

/-- Python dict assignment `d[k] = v`: updates in place when the key is
present, appends otherwise. -/
def dset (d : List (String × α)) (k : String) (v : α) : List (String × α) :=
  if (d.lookup k).isSome then
    d.map fun kv => if kv.1 = k then (kv.1, v) else kv
  else d ++ [(k, v)]

/-- Python `str.replace` on char lists: replace all non-overlapping
occurrences of `pat`, scanning left to right (for a non-empty `pat`,
which is the only way the program calls it). -/
def replaceAll (pat rep : List Char) : List Char → List Char
  | [] => []
  | c :: rest =>
    if pat.isPrefixOf (c :: rest) && !pat.isEmpty then
      rep ++ replaceAll pat rep ((c :: rest).drop pat.length)
    else
      c :: replaceAll pat rep rest
termination_by s => s.length
decreasing_by
  · simp only [Bool.and_eq_true, Bool.not_eq_true', List.isEmpty_eq_false] at *
    rename_i h
    have hp : 1 ≤ pat.length := by
      cases pat with
      | nil => simp at h
      | cons a l => simp
    simp [List.length_drop]
    omega
  · simp

/-- Python `str.replace` (all occurrences). -/
def pyReplace (s pat rep : String) : String :=
  String.mk (replaceAll pat.data rep.data s.data)

/-- `pat` occurs somewhere inside `s` (as a contiguous substring). -/
def OccursIn (pat s : String) : Prop :=
  pat.data <:+: s.data

instance (pat s : String) : Decidable (OccursIn pat s) := by
  unfold OccursIn
  infer_instance

/-- The state of an `Evaluator` (lines 6-34).  `expressionInternal` is
the private `__expression` field holding the rewritten expression that
is handed to Python's `eval`. -/
structure Evaluator where
  expression : String
  expressionInternal : String
  vars : List String
  lines : List (List (String × Cell))
deriving Repr

/-- `Evaluator.__init__` (lines 11-17): rewrite the operator keywords to
Python's (`OR` first, then `NOT`, then `AND`), sort the variable list
and start with no rows. -/
def Evaluator.mkE (expression : String) (vars : List String) : Evaluator :=
  { expression := expression
    expressionInternal :=
      pyReplace (pyReplace (pyReplace expression "OR" "or") "NOT" "not") "AND" "and"
    vars := List.insertionSort (fun a b => a ≤ b) vars
    lines := [] }

/-- The assignment dict built for row `i` (lines 25-27): variable at
sorted position `j` gets `1` iff `i & (1 << (n - j - 1))` is non-zero. -/
def mkAssign (vars : List String) (i : Nat) : List (String × Nat) :=
  vars.enum.foldl
    (fun d jv =>
      dset d jv.2 (if i &&& (1 <<< (vars.length - jv.1 - 1)) ≠ 0 then 1 else 0))
    []

/-- One row of `Evaluator.eval` (lines 24-34): the assignment cells
followed by the rendered result of evaluating the rewritten expression
under that assignment, stored under the key `" "`.  `pyeval` is the
oracle standing for `eval` plus the centering format of lines 32-34. -/
def mkLine (pyeval : String → String → List (String × Nat) → String)
    (expression expressionInternal : String) (vars : List String)
    (i : Nat) : List (String × Cell) :=
  let globs := mkAssign vars i
  dset (globs.map fun kv => (kv.1, Cell.num kv.2)) " "
    (Cell.str (pyeval expression expressionInternal globs))

/-- `Evaluator.eval` (lines 19-34): reset `lines` and rebuild one row
per integer `i` in `[0, 2 ** len(vars))`, in increasing order. -/
def Evaluator.eval (pyeval : String → String → List (String × Nat) → String)
    (ev : Evaluator) : Evaluator :=
  { ev with
    lines :=
      (List.range (2 ^ ev.vars.length)).foldl
        (fun ls i =>
          ls ++ [mkLine pyeval ev.expression ev.expressionInternal ev.vars i])
        [] }

/-! ## Generic lemmas about `pyInsert`, `indexOf` and weights -/

theorem pyInsert_perm (i : Nat) (x : α) (l : List α) :
    (pyInsert i x l).Perm (x :: l) := by
  unfold pyInsert
  calc (l.take i ++ x :: l.drop i).Perm (x :: (l.take i ++ l.drop i)) :=
        List.perm_middle
    _ = x :: l := by rw [List.take_append_drop]

theorem mem_pyInsert (i : Nat) (x a : α) (l : List α) :
    a ∈ pyInsert i x l ↔ a = x ∨ a ∈ l := by
  rw [(pyInsert_perm i x l).mem_iff, List.mem_cons]

theorem length_pyInsert (i : Nat) (x : α) (l : List α) :
    (pyInsert i x l).length = l.length + 1 :=
  (pyInsert_perm i x l).length_eq

theorem pyInsert_append_left (i : Nat) (x : α) {A : List α} (C : List α)
    (h : i ≤ A.length) : pyInsert i x (A ++ C) = pyInsert i x A ++ C := by
  unfold pyInsert
  rw [List.take_append_eq_append_take, List.drop_append_eq_append_drop]
  have h1 : i - A.length = 0 := by omega
  simp [h1]

theorem pyInsert_append_right (i : Nat) (x : α) {A : List α} (C : List α)
    (h : A.length ≤ i) : pyInsert i x (A ++ C) = A ++ pyInsert (i - A.length) x C := by
  unfold pyInsert
  rw [List.take_append_eq_append_take, List.drop_append_eq_append_drop]
  rw [List.take_of_length_le h, List.drop_of_length_le h]
  simp

theorem pyInsert_comm (i j : Nat) (x y : α) (l : List α)
    (hi : i ≤ l.length) (hij : i < j) :
    pyInsert j x (pyInsert i y l) = pyInsert i y (pyInsert (j - 1) x l) := by
  have hlen : (l.take i).length = i := by
    rw [List.length_take]; omega
  have h1 : pyInsert i y l = (l.take i ++ [y]) ++ l.drop i := by
    unfold pyInsert; simp
  have h2 : pyInsert j x (pyInsert i y l)
      = l.take i ++ y :: pyInsert (j - 1 - i) x (l.drop i) := by
    rw [h1, pyInsert_append_right _ _ _ (by simp [hlen]; omega)]
    simp only [List.length_append, hlen, List.length_singleton]
    have : j - (i + 1) = j - 1 - i := by omega
    rw [this, List.append_assoc, List.singleton_append]
  have h3 : pyInsert (j - 1) x l
      = l.take i ++ pyInsert (j - 1 - i) x (l.drop i) := by
    conv_lhs => rw [← List.take_append_drop i l]
    rw [pyInsert_append_right _ _ _ (by omega : (l.take i).length ≤ j - 1)]
    rw [hlen]
  have h4 : pyInsert i y (pyInsert (j - 1) x l)
      = l.take i ++ y :: pyInsert (j - 1 - i) x (l.drop i) := by
    rw [h3, pyInsert_append_left _ _ _ (by omega : i ≤ (l.take i).length)]
    unfold pyInsert
    rw [List.take_of_length_le (by omega), List.drop_of_length_le (by omega)]
    simp
  rw [h2, h4]

theorem indexOf_append_of_not_mem [DecidableEq α] {x : α} {A : List α}
    (B : List α) (h : x ∉ A) :
    List.indexOf x (A ++ B) = A.length + List.indexOf x B := by
  induction A with
  | nil => simp
  | cons a A ih =>
    have hax : (a == x) = false := beq_eq_false_iff_ne.mpr
      fun hc => h (hc ▸ List.mem_cons_self a A)
    simp only [List.cons_append, List.indexOf_cons, hax, cond_false,
      List.length_cons]
    rw [ih (fun hc => h (List.mem_cons_of_mem a hc))]
    omega

theorem not_mem_take_of_le_indexOf [DecidableEq α] {x : α} {l : List α}
    {n : Nat} (h : n ≤ List.indexOf x l) : x ∉ l.take n := by
  induction l generalizing n with
  | nil => simp
  | cons a l ih =>
    cases n with
    | zero => simp
    | succ n =>
      by_cases hax : a = x
      · simp [hax, List.indexOf_cons] at h
      · have hax' : (a == x) = false := beq_eq_false_iff_ne.mpr hax
        have h' : n ≤ List.indexOf x l := by
          simp only [List.indexOf_cons, hax', cond_false] at h
          omega
        simp only [List.take_succ_cons, List.mem_cons]
        rintro (hc | hc)
        · exact hax hc.symm
        · exact ih h' hc

theorem weight_nil : weight [] = 0 := rfl

theorem weight_append (a b : List String) :
    weight (a ++ b) = weight a + weight b := by
  unfold weight
  rw [List.map_append, List.sum_append]

theorem weight_cons (t : String) (l : List String) :
    weight (t :: l) = tokWeight t + weight l := by
  unfold weight
  rw [List.map_cons, List.sum_cons]

theorem weight_eq_zero_of_all (e : List String)
    (h : ∀ t ∈ e, tokWeight t = 0) : weight e = 0 := by
  unfold weight
  apply List.sum_eq_zero
  intro x hx
  obtain ⟨t, ht, rfl⟩ := List.mem_map.mp hx
  exact h t ht

theorem balanced_weight_take (e : List String) (hb : Balanced e) (n : Nat) :
    0 ≤ weight (e.take n) := by
  by_cases h : n < e.length
  · exact hb.2 n h
  · rw [List.take_of_length_le (by omega)]
    rw [hb.1]

theorem weight_take_add (l : List String) (m n : Nat) :
    weight (l.take (m + n)) = weight (l.take m) + weight ((l.drop m).take n) := by
  rw [List.take_add, weight_append]

theorem balanced_of_all_zero (e : List String)
    (h : ∀ t ∈ e, tokWeight t = 0) : Balanced e := by
  refine ⟨weight_eq_zero_of_all e h, fun n _ => ?_⟩
  have := weight_eq_zero_of_all (e.take n)
    (fun t ht => h t (e.take_prefix n |>.subset ht))
  omega

theorem balanced_pyInsert_pair (e : List String) (i j : Nat)
    (hij : i ≤ j) (hj : j ≤ e.length) (hb : Balanced e) :
    Balanced (pyInsert i "(" (pyInsert j ")" e)) := by
  have hi : i ≤ e.length := le_trans hij hj
  set U := e.take i with hU
  set V := (e.take j).drop i with hV
  set W := e.drop j with hW
  have hlU : U.length = i := by rw [hU, List.length_take]; omega
  have hlV : V.length = j - i := by
    rw [hV, List.length_drop, List.length_take]; omega
  have hUV : U ++ V = e.take j := by
    rw [hU, hV]
    have : e.take i = (e.take j).take i := by
      rw [List.take_take]
      congr 1
      omega
    rw [this, List.take_append_drop]
  have hR : pyInsert i "(" (pyInsert j ")" e) = U ++ "(" :: (V ++ ")" :: W) := by
    show pyInsert i "(" (e.take j ++ ")" :: e.drop j) = _
    rw [← hUV, List.append_assoc]
    rw [pyInsert_append_left _ _ _ (by omega : i ≤ U.length)]
    have hPU : pyInsert i "(" U = U ++ ["("] := by
      unfold pyInsert
      rw [List.take_of_length_le (by omega), List.drop_of_length_le (by omega)]
    rw [hPU, List.append_assoc]
    rfl
  rw [hR]
  have hwtj : ∀ m, weight ((e.take j).take m) = weight (e.take (min m j)) := by
    intro m
    rw [List.take_take]
  constructor
  · rw [weight_append, weight_cons, weight_append, weight_cons]
    have h1 : weight U + weight V = weight (e.take j) := by
      rw [← weight_append, hUV]
    have h2 : weight (e.take j) + weight W = weight e := by
      rw [hW, ← weight_append, List.take_append_drop]
    have h3 : tokWeight "(" = 1 := rfl
    have h4 : tokWeight ")" = -1 := rfl
    rw [h3, h4]
    rw [hb.1] at h2
    omega
  · intro n _
    rw [List.take_append_eq_append_take]
    rw [weight_append]
    by_cases hn1 : n ≤ i
    · have : n - U.length = 0 := by omega
      rw [this]
      have : (U.take n) = e.take n := by
        rw [hU, List.take_take]
        congr 1
        omega
      rw [this]
      simp only [List.take_zero, weight_nil, add_zero]
      exact balanced_weight_take e hb n
    · have hUfull : U.take n = U := List.take_of_length_le (by omega)
      rw [hUfull]
      have hm : n - U.length = (n - U.length - 1) + 1 := by omega
      rw [hm, List.take_succ_cons, weight_cons]
      set m := n - U.length - 1 with hmdef
      rw [List.take_append_eq_append_take, weight_append]
      by_cases hn2 : m ≤ V.length
      · have : m - V.length = 0 := by omega
        rw [this]
        simp only [List.take_zero, weight_nil, add_zero]
        have h5 : weight U + weight (V.take m) = weight (e.take (i + m)) := by
          have hU' : U = (e.take j).take i := by
            rw [hU, List.take_take]
            congr 1
            omega
          rw [hU', hV, ← weight_take_add (e.take j) i m, List.take_take]
          have h8 : min (i + m) j = i + m := by omega
          rw [h8]
        have h9 : tokWeight "(" = 1 := rfl
        have := balanced_weight_take e hb (i + m)
        omega
      · have hVfull : V.take m = V := List.take_of_length_le (by omega)
        rw [hVfull]
        have hm2 : m - V.length = (m - V.length - 1) + 1 := by omega
        rw [hm2, List.take_succ_cons, weight_cons]
        set p := m - V.length - 1 with hpdef
        have h10 : weight U + weight V = weight (e.take j) := by
          rw [← weight_append, hUV]
        have h11 : weight (e.take j) + weight (W.take p) = weight (e.take (j + p)) := by
          rw [hW, ← weight_take_add e j p]
        have h12 : tokWeight "(" = 1 := rfl
        have h13 : tokWeight ")" = -1 := rfl
        have := balanced_weight_take e hb (j + p)
        omega

/-! ## Association-list (dict) lemmas -/

theorem lookup_pair_cons (k a1 : String) (a2 : Nat) (d : List (String × Nat)) :
    List.lookup k ((a1, a2) :: d) =
      if k == a1 then some a2 else List.lookup k d := by
  cases h : k == a1 <;> simp [List.lookup, h]

theorem setSnd_cons (a1 : String) (a2 : Nat) (d : List (String × Nat))
    (k : String) (n : Nat) :
    setSnd ((a1, a2) :: d) k n =
      (if a1 = k then (a1, n) else (a1, a2)) :: setSnd d k n := by
  unfold setSnd
  rw [List.map_cons]

theorem lookup_eq_of_mem {d : List (String × Nat)} {k : String} {v : Nat}
    (hnd : (d.map Prod.fst).Nodup) (hmem : (k, v) ∈ d) :
    d.lookup k = some v := by
  induction d with
  | nil => cases hmem
  | cons a d ih =>
    obtain ⟨a1, a2⟩ := a
    rw [lookup_pair_cons]
    rcases List.mem_cons.mp hmem with h | h
    · cases h
      simp
    · have hka : k ≠ a1 := by
        intro hc
        have : a1 ∈ d.map Prod.fst :=
          List.mem_map.mpr ⟨(k, v), h, by rw [hc]⟩
        exact (List.nodup_cons.mp hnd).1 this
      have hbeq : (k == a1) = false := beq_eq_false_iff_ne.mpr hka
      rw [hbeq]
      exact ih (List.nodup_cons.mp hnd).2 h

theorem lookupD_eq_of_mem {d : List (String × Nat)} {k : String} {v : Nat}
    (hnd : (d.map Prod.fst).Nodup) (hmem : (k, v) ∈ d) :
    lookupD d k = v := by
  unfold lookupD
  rw [lookup_eq_of_mem hnd hmem]
  rfl

theorem map_fst_setSnd (d : List (String × Nat)) (k : String) (n : Nat) :
    (setSnd d k n).map Prod.fst = d.map Prod.fst := by
  unfold setSnd
  rw [List.map_map]
  apply List.map_congr_left
  intro kv _
  by_cases h : kv.1 = k <;> simp [h]

theorem length_setSnd (d : List (String × Nat)) (k : String) (n : Nat) :
    (setSnd d k n).length = d.length := by
  unfold setSnd
  exact List.length_map d _

theorem getElem_setSnd (d : List (String × Nat)) (k : String) (n : Nat)
    (i : Nat) (h : i < d.length) (h2 : i < (setSnd d k n).length) :
    (setSnd d k n)[i] =
      if d[i].1 = k then (d[i].1, n) else d[i] := by
  unfold setSnd
  rw [List.getElem_map]

theorem mem_setSnd_of_mem_ne {d : List (String × Nat)} {p : String × Nat}
    (k : String) (n : Nat) (hp : p ∈ d) (hne : p.1 ≠ k) :
    p ∈ setSnd d k n := by
  unfold setSnd
  refine List.mem_map.mpr ⟨p, hp, ?_⟩
  simp [hne]

theorem lookupD_setSnd_self {d : List (String × Nat)} {k : String}
    (n : Nat) (hk : k ∈ d.map Prod.fst) :
    lookupD (setSnd d k n) k = n := by
  induction d with
  | nil => cases hk
  | cons a d ih =>
    obtain ⟨a1, a2⟩ := a
    rw [setSnd_cons]
    by_cases h : a1 = k
    · rw [if_pos h]
      unfold lookupD
      rw [lookup_pair_cons]
      have : (k == a1) = true := beq_iff_eq.mpr h.symm
      rw [this]
      rfl
    · rw [if_neg h]
      have hk' : k ∈ d.map Prod.fst := by
        rcases List.mem_map.mp hk with ⟨p, hp, hfst⟩
        rcases List.mem_cons.mp hp with heq | hp'
        · rw [heq] at hfst
          exact absurd hfst h
        · exact List.mem_map.mpr ⟨p, hp', hfst⟩
      have hne : (k == a1) = false := beq_eq_false_iff_ne.mpr
        fun hc => h hc.symm
      unfold lookupD at *
      rw [lookup_pair_cons, hne]
      exact ih hk'

theorem lookupD_setSnd_ne {d : List (String × Nat)} {k k' : String}
    (n : Nat) (hne : k' ≠ k) :
    lookupD (setSnd d k n) k' = lookupD d k' := by
  induction d with
  | nil => rfl
  | cons a d ih =>
    obtain ⟨a1, a2⟩ := a
    rw [setSnd_cons]
    unfold lookupD at *
    by_cases hk : a1 = k
    · have h2 : (k' == a1) = false := beq_eq_false_iff_ne.mpr
        (by rw [hk]; exact hne)
      rw [if_pos hk, lookup_pair_cons, lookup_pair_cons, h2]
      simpa using ih
    · rw [if_neg hk, lookup_pair_cons, lookup_pair_cons]
      by_cases h3 : k' = a1
      · have h4 : (k' == a1) = true := beq_iff_eq.mpr h3
        rw [h4]
        simp
      · have h4 : (k' == a1) = false := beq_eq_false_iff_ne.mpr h3
        rw [h4]
        simpa using ih

/-! ## Lemmas about `generate_indices_of_variables` -/

theorem gi_perm (vars e : List String) :
    (generate_indices_of_variables vars e).Perm
      (vars.map fun v => (v, List.indexOf v e)) :=
  List.perm_insertionSort sndLe _

theorem gi_sorted (vars e : List String) :
    List.Sorted sndLe (generate_indices_of_variables vars e) :=
  List.sorted_insertionSort sndLe _

theorem gi_length (vars e : List String) :
    (generate_indices_of_variables vars e).length = vars.length := by
  rw [(gi_perm vars e).length_eq, List.length_map]

theorem gi_fst_perm (vars e : List String) :
    ((generate_indices_of_variables vars e).map Prod.fst).Perm vars := by
  have h := (gi_perm vars e).map Prod.fst
  rw [List.map_map] at h
  have h2 : (Prod.fst ∘ fun v => (v, List.indexOf v e)) = id := rfl
  rw [h2, List.map_id] at h
  exact h

theorem gi_snd_eq {vars e : List String} {p : String × Nat}
    (hp : p ∈ generate_indices_of_variables vars e) :
    p.1 ∈ vars ∧ p.2 = List.indexOf p.1 e := by
  have := (gi_perm vars e).mem_iff.mp hp
  rcases List.mem_map.mp this with ⟨v, hv, heq⟩
  rw [← heq]
  exact ⟨hv, rfl⟩

theorem gi_mem_pair {vars e : List String} {v : String} (hv : v ∈ vars) :
    (v, List.indexOf v e) ∈ generate_indices_of_variables vars e :=
  (gi_perm vars e).mem_iff.mpr (List.mem_map.mpr ⟨v, hv, rfl⟩)

theorem gi_fst_nodup {vars : List String} (e : List String)
    (hnd : vars.Nodup) :
    ((generate_indices_of_variables vars e).map Prod.fst).Nodup :=
  (gi_fst_perm vars e).nodup_iff.mpr hnd

theorem gi_nodup {vars : List String} (e : List String) (hnd : vars.Nodup) :
    (generate_indices_of_variables vars e).Nodup :=
  List.Nodup.of_map Prod.fst (gi_fst_nodup e hnd)

theorem gi_lookupD {vars e : List String} {v : String} (hnd : vars.Nodup)
    (hv : v ∈ vars) :
    lookupD (generate_indices_of_variables vars e) v = List.indexOf v e :=
  lookupD_eq_of_mem (gi_fst_nodup e hnd) (gi_mem_pair hv)

theorem indexOf_inj {e : List String} {v w : String} (hv : v ∈ e)
    (hw : w ∈ e) (heq : List.indexOf v e = List.indexOf w e) : v = w := by
  have h1 := List.indexOf_get (List.indexOf_lt_length.mpr hv)
  have h2 := List.indexOf_get (List.indexOf_lt_length.mpr hw)
  rw [← h1, ← h2]
  congr 1
  exact Fin.ext heq

/-! ## Index computations under the `NotShape` decomposition -/

theorem indexOf_getElem_self {e : List String} {v : String}
    (h : List.indexOf v e < e.length) :
    e[List.indexOf v e] = v := by
  have hg := List.indexOf_get h
  rwa [List.get_eq_getElem] at hg

theorem shape_getElem_nA {A B : List String} {notVar : String}
    (h : A.length < (A ++ "NOT" :: "(" :: notVar :: B).length) :
    (A ++ "NOT" :: "(" :: notVar :: B)[A.length] = "NOT" := by
  rw [List.getElem_append_right (le_refl A.length)]
  simp

theorem shape_getElem_nA1 {A B : List String} {notVar : String}
    (h : A.length + 1 < (A ++ "NOT" :: "(" :: notVar :: B).length) :
    (A ++ "NOT" :: "(" :: notVar :: B)[A.length + 1] = "(" := by
  rw [List.getElem_append_right (by omega : A.length ≤ A.length + 1)]
  have : A.length + 1 - A.length = 1 := by omega
  simp [this]

theorem shape_getElem_nA2 {A B : List String} {notVar : String}
    (h : A.length + 2 < (A ++ "NOT" :: "(" :: notVar :: B).length) :
    (A ++ "NOT" :: "(" :: notVar :: B)[A.length + 2] = notVar := by
  rw [List.getElem_append_right (by omega : A.length ≤ A.length + 2)]
  have : A.length + 2 - A.length = 2 := by omega
  simp [this]

theorem shape_length {A B : List String} {notVar : String} :
    (A ++ "NOT" :: "(" :: notVar :: B).length = A.length + 3 + B.length := by
  simp
  omega

theorem shape_indexOf_NOT {A B : List String} {notVar : String}
    (hNA : "NOT" ∉ A) :
    List.indexOf "NOT" (A ++ "NOT" :: "(" :: notVar :: B) = A.length := by
  rw [indexOf_append_of_not_mem _ hNA]
  simp [List.indexOf_cons]

theorem shape_indexOf_notVar {A B : List String} {notVar : String}
    (hnvA : notVar ∉ A) (h1 : notVar ≠ "NOT") (h2 : notVar ≠ "(") :
    List.indexOf notVar (A ++ "NOT" :: "(" :: notVar :: B) = A.length + 2 := by
  rw [indexOf_append_of_not_mem _ hnvA]
  have e1 : ("NOT" == notVar) = false := beq_eq_false_iff_ne.mpr
    fun hc => h1 hc.symm
  have e2 : ("(" == notVar) = false := beq_eq_false_iff_ne.mpr
    fun hc => h2 hc.symm
  simp [List.indexOf_cons, e1, e2]

theorem shape_indexOf_other {A B : List String} {notVar v : String}
    (hv : v ∈ A ++ "NOT" :: "(" :: notVar :: B) (hvnv : v ≠ notVar)
    (hvNOT : v ≠ "NOT") (hvLP : v ≠ "(") :
    List.indexOf v (A ++ "NOT" :: "(" :: notVar :: B) < A.length ∨
      A.length + 2 < List.indexOf v (A ++ "NOT" :: "(" :: notVar :: B) := by
  have hlen : (A ++ "NOT" :: "(" :: notVar :: B).length = A.length + 3 + B.length :=
    shape_length
  have hlt : List.indexOf v (A ++ "NOT" :: "(" :: notVar :: B) <
      (A ++ "NOT" :: "(" :: notVar :: B).length := List.indexOf_lt_length.mpr hv
  have hgetq : (A ++ "NOT" :: "(" :: notVar :: B)[List.indexOf v
      (A ++ "NOT" :: "(" :: notVar :: B)]? = some v := by
    rw [List.getElem?_eq_getElem hlt, indexOf_getElem_self hlt]
  by_contra hcon
  push_neg at hcon
  obtain ⟨hge, hle⟩ := hcon
  have hcases : List.indexOf v (A ++ "NOT" :: "(" :: notVar :: B) = A.length ∨
      List.indexOf v (A ++ "NOT" :: "(" :: notVar :: B) = A.length + 1 ∨
      List.indexOf v (A ++ "NOT" :: "(" :: notVar :: B) = A.length + 2 := by
    omega
  rcases hcases with hc | hc | hc
  · rw [hc, List.getElem?_eq_getElem (by omega),
      shape_getElem_nA (by omega)] at hgetq
    exact hvNOT (Option.some.inj hgetq).symm
  · rw [hc, List.getElem?_eq_getElem (by omega),
      shape_getElem_nA1 (by omega)] at hgetq
    exact hvLP (Option.some.inj hgetq).symm
  · rw [hc, List.getElem?_eq_getElem (by omega),
      shape_getElem_nA2 (by omega)] at hgetq
    exact hvnv (Option.some.inj hgetq).symm

/-! ## Behaviour of the random-position generator and parenthesis inserter -/

theorem gpp_none {ps : List (String × Nat)} (c : Nat)
    (hlen : ps.length ≤ 1) :
    generate_parentheses_positions ps c = none := by
  unfold generate_parentheses_positions
  have hkl : ((ps.map Prod.fst).dropLast).length = 0 := by
    rw [List.length_dropLast, List.length_map]
    omega
  have : ((ps.map Prod.fst).dropLast).isEmpty = true :=
    List.isEmpty_iff.mpr (List.length_eq_zero.mp hkl)
  simp only [this, if_true]

theorem nodup_indexOf_getElem [BEq α] [LawfulBEq α] {l : List α}
    (hnd : l.Nodup) {k : Nat} (hk : k < l.length) :
    List.indexOf (l[k]) l = k := by
  induction l generalizing k with
  | nil => simp at hk
  | cons a l ih =>
    cases k with
    | zero => simp [List.indexOf_cons]
    | succ k =>
      have hk' : k < l.length := by
        have := hk
        simp at this
        omega
      rw [List.getElem_cons_succ]
      have hne : a ≠ l[k] := by
        intro hc
        exact (List.nodup_cons.mp hnd).1 (hc ▸ List.getElem_mem hk')
      have ha : (a == l[k]) = false := beq_eq_false_iff_ne.mpr hne
      rw [List.indexOf_cons, ha]
      simp only [cond_false]
      rw [ih (List.nodup_cons.mp hnd).2]

theorem gpp_spec (ps : List (String × Nat)) (c : Nat)
    (hnd : (ps.map Prod.fst).Nodup) (hlen : 2 ≤ ps.length) :
    ∃ (k : Nat) (hk : k + 1 < ps.length),
      generate_parentheses_positions ps c =
        some ((ps[k]).1, (ps[k + 1]).1) := by
  have hpsnd : ps.Nodup := List.Nodup.of_map Prod.fst hnd
  simp only [generate_parentheses_positions]
  set keys := (ps.map Prod.fst).dropLast with hkeys
  have hkl : keys.length = ps.length - 1 := by
    rw [hkeys, List.length_dropLast, List.length_map]
  set k := c % keys.length with hkdef
  have hklt : k < keys.length := Nat.mod_lt c (by omega)
  have hk1 : k + 1 < ps.length := by omega
  have hkps : k < ps.length := by omega
  refine ⟨k, hk1, ?_⟩
  have hne : keys.isEmpty = false := by
    rw [List.isEmpty_eq_false]
    intro hc
    rw [hc] at hkl
    simp at hkl
    omega
  rw [if_neg (by rw [hne]; exact Bool.false_ne_true)]
  have hleft : keys.getD k "" = (ps[k]).1 := by
    rw [List.getD_eq_getElem?_getD, List.getElem?_eq_getElem hklt]
    show keys[k] = _
    simp only [hkeys]
    rw [List.getElem_dropLast, List.getElem_map]
  rw [hleft]
  have hlook : lookupD ps (ps[k]).1 = (ps[k]).2 :=
    lookupD_eq_of_mem hnd (by rw [Prod.mk.eta]; exact List.getElem_mem hkps)
  rw [hlook]
  have hpos : List.indexOf ((ps[k]).1, (ps[k]).2) ps = k := by
    rw [Prod.mk.eta]
    exact nodup_indexOf_getElem hpsnd hkps
  rw [hpos]
  rw [List.getD_eq_getElem?_getD, List.getElem?_eq_getElem hk1]
  rfl

theorem insert_parentheses_spec (notVar : String) (ps : List (String × Nat))
    (left right : String) (e : List String) (sl sr : Nat)
    (hlr : left ≠ right)
    (hl : lookupD ps left = sl) (hr : lookupD ps right = sr)
    (hrmem : right ∈ ps.map Prod.fst) :
    insert_parentheses notVar ps left right e =
      if sl = 0 ∧ e.length - 1 ≤ (if right = notVar then sr + 2 else sr) + 1
      then e
      else pyInsert sl "("
        (pyInsert ((if right = notVar then sr + 2 else sr) + 1) ")" e) := by
  simp only [insert_parentheses]
  by_cases hrn : right = notVar
  · rw [if_pos hrn, hr]
    have h1 : lookupD (setSnd ps right (sr + 2)) right = sr + 2 :=
      lookupD_setSnd_self _ hrmem
    rw [h1]
    have h2 : lookupD (setSnd (setSnd ps right (sr + 2)) right (sr + 2 + 1))
        left = sl := by
      rw [lookupD_setSnd_ne _ hlr, lookupD_setSnd_ne _ hlr, hl]
    have h3 : lookupD (setSnd (setSnd ps right (sr + 2)) right (sr + 2 + 1))
        right = sr + 2 + 1 := by
      apply lookupD_setSnd_self
      rw [map_fst_setSnd]
      exact hrmem
    rw [h2, h3, if_pos hrn]
  · rw [if_neg hrn, hr]
    have h2 : lookupD (setSnd ps right (sr + 1)) left = sl := by
      rw [lookupD_setSnd_ne _ hlr, hl]
    have h3 : lookupD (setSnd ps right (sr + 1)) right = sr + 1 :=
      lookupD_setSnd_self _ hrmem
    rw [h2, h3, if_neg hrn]

theorem extra_group_step_none (vars : List String) (notVar : String)
    (c : Nat) (e : List String) (h1 : vars.length ≤ 1) :
    extra_group_step vars notVar c e = none := by
  simp only [extra_group_step]
  rw [gpp_none]
  rw [length_setSnd, gi_length]
  exact h1

theorem gi_adjacent_lt {vars e : List String} (hnd : vars.Nodup)
    (hmem : ∀ v ∈ vars, v ∈ e) {k : Nat}
    (hk : k + 1 < (generate_indices_of_variables vars e).length) :
    ((generate_indices_of_variables vars e)[k]).2 <
      ((generate_indices_of_variables vars e)[k + 1]).2 := by
  have hs := gi_sorted vars e
  have hgind := gi_nodup e hnd
  have hle : sndLe ((generate_indices_of_variables vars e)[k])
      ((generate_indices_of_variables vars e)[k + 1]) := by
    have := List.pairwise_iff_get.mp hs ⟨k, by omega⟩ ⟨k + 1, hk⟩
      (Fin.mk_lt_mk.mpr (Nat.lt_succ_self k))
    rw [List.get_eq_getElem, List.get_eq_getElem] at this
    exact this
  have hle' : ((generate_indices_of_variables vars e)[k]).2 ≤
      ((generate_indices_of_variables vars e)[k + 1]).2 := hle
  rcases lt_or_eq_of_le hle' with h | h
  · exact h
  · exfalso
    obtain ⟨h1v, h1i⟩ := gi_snd_eq
      (List.getElem_mem (show k < (generate_indices_of_variables vars e).length
        by omega))
    obtain ⟨h2v, h2i⟩ := gi_snd_eq (List.getElem_mem hk)
    have hfst : ((generate_indices_of_variables vars e)[k]).1 =
        ((generate_indices_of_variables vars e)[k + 1]).1 := by
      apply indexOf_inj (hmem _ h1v) (hmem _ h2v)
      rw [← h1i, ← h2i, h]
    have hpair : (generate_indices_of_variables vars e)[k] =
        (generate_indices_of_variables vars e)[k + 1] :=
      Prod.ext hfst h
    have hidx1 := nodup_indexOf_getElem hgind
      (show k < (generate_indices_of_variables vars e).length by omega)
    rw [hpair, nodup_indexOf_getElem hgind hk] at hidx1
    omega

theorem map_fst_nodup_getElem_ne {d : List (String × Nat)}
    (hnd : (d.map Prod.fst).Nodup) {k m : Nat} (hk : k < d.length)
    (hm : m < d.length) (hne : k ≠ m) : (d[k]).1 ≠ (d[m]).1 := by
  intro hc
  have hkm : k < (d.map Prod.fst).length := by simpa using hk
  have hmm : m < (d.map Prod.fst).length := by simpa using hm
  have h1 : (d.map Prod.fst).get ⟨k, hkm⟩ = (d.map Prod.fst).get ⟨m, hmm⟩ := by
    rw [List.get_eq_getElem, List.get_eq_getElem, List.getElem_map,
      List.getElem_map]
    exact hc
  have h2 := (List.Nodup.get_inj_iff hnd).mp h1
  exact hne (congrArg Fin.val h2)

/-- Complete analysis of one iteration of the extra-parenthesis loop on an
expression in `NotShape` form: the step always succeeds, and either skips
(when the candidate group would wrap the whole expression) or inserts a
`(`/`)` pair at positions `i < j` that avoid the two slots between `NOT`,
`(` and the negated variable. -/
theorem extra_group_analysis
    (vars : List String) (notVar : String) (c : Nat) (A B : List String)
    (hnd : vars.Nodup) (hnv : notVar ∈ vars)
    (hNOTv : "NOT" ∉ vars) (hLPv : "(" ∉ vars)
    (hmem : ∀ v ∈ vars, v ∈ A ++ "NOT" :: "(" :: notVar :: B)
    (hnvA : notVar ∉ A)
    (h2 : 2 ≤ vars.length) :
    ∃ i j,
      i < j ∧ j ≤ (A ++ "NOT" :: "(" :: notVar :: B).length ∧
      i ≠ A.length + 1 ∧ i ≠ A.length + 2 ∧
      j ≠ A.length + 1 ∧ j ≠ A.length + 2 ∧
      ((i = 0 ∧ (A ++ "NOT" :: "(" :: notVar :: B).length - 1 ≤ j ∧
        extra_group_step vars notVar c (A ++ "NOT" :: "(" :: notVar :: B) =
          some (A ++ "NOT" :: "(" :: notVar :: B)) ∨
       (¬(i = 0 ∧ (A ++ "NOT" :: "(" :: notVar :: B).length - 1 ≤ j) ∧
        extra_group_step vars notVar c (A ++ "NOT" :: "(" :: notVar :: B) =
          some (pyInsert i "("
            (pyInsert j ")" (A ++ "NOT" :: "(" :: notVar :: B))))) := by
  set e := A ++ "NOT" :: "(" :: notVar :: B with he
  have hnvNOT : notVar ≠ "NOT" := fun hc => hNOTv (hc ▸ hnv)
  have hnvLP : notVar ≠ "(" := fun hc => hLPv (hc ▸ hnv)
  have helen : e.length = A.length + 3 + B.length := by rw [he]; exact shape_length
  have hidxnv : List.indexOf notVar e = A.length + 2 := by
    rw [he]; exact shape_indexOf_notVar hnvA hnvNOT hnvLP
  have hgilen : (generate_indices_of_variables vars e).length = vars.length :=
    gi_length vars e
  have hfstnd : ((generate_indices_of_variables vars e).map Prod.fst).Nodup :=
    gi_fst_nodup e hnd
  have hlookgi : lookupD (generate_indices_of_variables vars e) notVar =
      A.length + 2 := by
    rw [gi_lookupD hnd hnv, hidxnv]
  have hstep : extra_group_step vars notVar c e =
      (match generate_parentheses_positions
          (setSnd (generate_indices_of_variables vars e) notVar A.length) c with
        | none => none
        | some (left, right) =>
          some (insert_parentheses notVar
            (setSnd (generate_indices_of_variables vars e) notVar A.length)
            left right e)) := by
    simp only [extra_group_step]
    rw [hlookgi, Nat.add_sub_cancel]
  set adj := setSnd (generate_indices_of_variables vars e) notVar A.length
    with hadjdef
  have hadjlen : adj.length = vars.length := by
    rw [hadjdef, length_setSnd, gi_length]
  have hadjfst : adj.map Prod.fst =
      (generate_indices_of_variables vars e).map Prod.fst :=
    map_fst_setSnd _ _ _
  have hadjnd : (adj.map Prod.fst).Nodup := by rw [hadjfst]; exact hfstnd
  obtain ⟨k, hk1, hgpp⟩ := gpp_spec adj c hadjnd (by omega)
  have hstep2 : extra_group_step vars notVar c e =
      some (insert_parentheses notVar adj ((adj[k]).1)
        ((adj[k + 1]).1) e) := by
    rw [hstep, hgpp]
  have hgk : k < (generate_indices_of_variables vars e).length := by omega
  have hgk1 : k + 1 < (generate_indices_of_variables vars e).length := by omega
  have hadjk : adj[k] =
      if ((generate_indices_of_variables vars e)[k]).1 = notVar
      then (((generate_indices_of_variables vars e)[k]).1, A.length)
      else (generate_indices_of_variables vars e)[k] :=
    getElem_setSnd _ _ _ k hgk (by rw [length_setSnd]; exact hgk)
  have hadjk1 : adj[k + 1] =
      if ((generate_indices_of_variables vars e)[k + 1]).1 = notVar
      then (((generate_indices_of_variables vars e)[k + 1]).1, A.length)
      else (generate_indices_of_variables vars e)[k + 1] :=
    getElem_setSnd _ _ _ (k + 1) hgk1 (by rw [length_setSnd]; exact hgk1)
  obtain ⟨huv, hua⟩ := gi_snd_eq
    (List.getElem_mem hgk :
      (generate_indices_of_variables vars e)[k] ∈ _)
  obtain ⟨hwv, hwb⟩ := gi_snd_eq
    (List.getElem_mem hgk1 :
      (generate_indices_of_variables vars e)[k + 1] ∈ _)
  have hab : ((generate_indices_of_variables vars e)[k]).2 <
      ((generate_indices_of_variables vars e)[k + 1]).2 :=
    gi_adjacent_lt hnd hmem hgk1
  have hune : ((generate_indices_of_variables vars e)[k]).1 ≠
      ((generate_indices_of_variables vars e)[k + 1]).1 :=
    map_fst_nodup_getElem_ne hfstnd hgk hgk1 (by omega)
  have hlr : (adj[k]).1 ≠ (adj[k + 1]).1 :=
    map_fst_nodup_getElem_ne hadjnd (by omega) hk1 (by omega)
  have hsl : lookupD adj (adj[k]).1 = (adj[k]).2 :=
    lookupD_eq_of_mem hadjnd
      (by rw [Prod.mk.eta]; exact List.getElem_mem (by omega))
  have hsr : lookupD adj (adj[k + 1]).1 = (adj[k + 1]).2 :=
    lookupD_eq_of_mem hadjnd
      (by rw [Prod.mk.eta]; exact List.getElem_mem hk1)
  have hrmem : (adj[k + 1]).1 ∈ adj.map Prod.fst := by
    have hkm : k + 1 < (adj.map Prod.fst).length := by simpa using hk1
    have hgm : (adj.map Prod.fst)[k + 1] = (adj[k + 1]).1 :=
      List.getElem_map _
    rw [← hgm]
    exact List.getElem_mem hkm
  have hspec := insert_parentheses_spec notVar adj
    ((adj[k]).1) ((adj[k + 1]).1) e
    ((adj[k]).2) ((adj[k + 1]).2) hlr hsl hsr hrmem
  rw [hspec] at hstep2
  -- Name the insert positions.
  set i := (adj[k]).2 with hidef
  set j := (if (adj[k + 1]).1 = notVar
    then (adj[k + 1]).2 + 2 else (adj[k + 1]).2) + 1 with hjdef
  -- Establish the numeric facts about i and j by cases on which of the two
  -- entries is the negated variable.
  have hmain : i < j ∧ j ≤ e.length ∧
      i ≠ A.length + 1 ∧ i ≠ A.length + 2 ∧
      j ≠ A.length + 1 ∧ j ≠ A.length + 2 := by
    by_cases hknv : ((generate_indices_of_variables vars e)[k]).1 = notVar
    · -- left entry is the negated variable: i = |A|, right entry is not.
      have hk1nv : ((generate_indices_of_variables vars e)[k + 1]).1 ≠
          notVar := by rw [← hknv]; exact hune.symm
      have hi : i = A.length := by
        rw [hidef, hadjk, if_pos hknv]
      have hrightfst : (adj[k + 1]).1 =
          ((generate_indices_of_variables vars e)[k + 1]).1 := by
        rw [hadjk1, if_neg hk1nv]
      have hrightsnd : (adj[k + 1]).2 =
          ((generate_indices_of_variables vars e)[k + 1]).2 := by
        rw [hadjk1, if_neg hk1nv]
      have hj : j = ((generate_indices_of_variables vars e)[k + 1]).2
          + 1 := by
        rw [hjdef, hrightfst, if_neg hk1nv, hrightsnd]
      have haval : ((generate_indices_of_variables vars e)[k]).2 =
          A.length + 2 := by
        rw [hua, hknv, hidxnv]
      have hblt : ((generate_indices_of_variables vars e)[k + 1]).2 <
          e.length := by
        rw [hwb]
        exact List.indexOf_lt_length.mpr (hmem _ hwv)
      refine ⟨?_, ?_, ?_, ?_, ?_, ?_⟩ <;> omega
    · have hleftfst : (adj[k]).1 =
          ((generate_indices_of_variables vars e)[k]).1 := by
        rw [hadjk, if_neg hknv]
      have hleftsnd : i = ((generate_indices_of_variables vars e)[k]).2 := by
        rw [hidef, hadjk, if_neg hknv]
      have huNOT : ((generate_indices_of_variables vars e)[k]).1 ≠ "NOT" :=
        fun hc => hNOTv (hc ▸ huv)
      have huLP : ((generate_indices_of_variables vars e)[k]).1 ≠ "(" :=
        fun hc => hLPv (hc ▸ huv)
      have hua' := shape_indexOf_other (hmem _ huv) hknv huNOT huLP
      rw [← he] at hua'
      rw [← hua] at hua'
      by_cases hk1nv : ((generate_indices_of_variables vars e)[k + 1]).1 =
          notVar
      · -- right entry is the negated variable: j = |A| + 3.
        have hrightfst : (adj[k + 1]).1 = notVar := by
          rw [hadjk1, if_pos hk1nv, hk1nv]
        have hrightsnd : (adj[k + 1]).2 = A.length := by
          rw [hadjk1, if_pos hk1nv]
        have hj : j = A.length + 3 := by
          rw [hjdef, hrightfst, if_pos rfl, hrightsnd]
        have hbval : ((generate_indices_of_variables vars e)[k + 1]).2 =
            A.length + 2 := by
          rw [hwb, hk1nv, hidxnv]
        refine ⟨?_, ?_, ?_, ?_, ?_, ?_⟩ <;> omega
      · -- neither entry is the negated variable.
        have hrightfst : (adj[k + 1]).1 =
            ((generate_indices_of_variables vars e)[k + 1]).1 := by
          rw [hadjk1, if_neg hk1nv]
        have hrightsnd : (adj[k + 1]).2 =
            ((generate_indices_of_variables vars e)[k + 1]).2 := by
          rw [hadjk1, if_neg hk1nv]
        have hj : j = ((generate_indices_of_variables vars e)[k + 1]).2
            + 1 := by
          rw [hjdef, hrightfst, if_neg hk1nv, hrightsnd]
        have hwNOT : ((generate_indices_of_variables vars e)[k + 1]).1 ≠
            "NOT" := fun hc => hNOTv (hc ▸ hwv)
        have hwLP : ((generate_indices_of_variables vars e)[k + 1]).1 ≠
            "(" := fun hc => hLPv (hc ▸ hwv)
        have hwb' := shape_indexOf_other (hmem _ hwv) hk1nv hwNOT hwLP
        rw [← he] at hwb'
        rw [← hwb] at hwb'
        have hblt : ((generate_indices_of_variables vars e)[k + 1]).2 <
            e.length := by
          rw [hwb]
          exact List.indexOf_lt_length.mpr (hmem _ hwv)
        refine ⟨?_, ?_, ?_, ?_, ?_, ?_⟩ <;> omega
  obtain ⟨hij, hjlen, hi1, hi2, hj1, hj2⟩ := hmain
  by_cases hg : i = 0 ∧ e.length - 1 ≤ j
  · refine ⟨i, j, hij, hjlen, hi1, hi2, hj1, hj2, Or.inl ⟨hg.1, hg.2, ?_⟩⟩
    rw [hstep2, if_pos hg]
  · refine ⟨i, j, hij, hjlen, hi1, hi2, hj1, hj2, Or.inr ⟨hg, ?_⟩⟩
    rw [hstep2, if_neg hg]

/-- Inserting a token other than `NOT` and other than the negated variable
at a position that avoids the two slots directly after `NOT` preserves the
`NOT ( v` shape of the expression. -/
theorem NotShape_pyInsert (notVar x : String) (e : List String) (p : Nat)
    (A B : List String) (he : e = A ++ "NOT" :: "(" :: notVar :: B)
    (hNA : "NOT" ∉ A) (hNB : "NOT" ∉ B) (hnvA : notVar ∉ A)
    (hx1 : x ≠ "NOT") (hx2 : x ≠ notVar)
    (hp1 : p ≠ A.length + 1) (hp2 : p ≠ A.length + 2) :
    ∃ A' B', pyInsert p x e = A' ++ "NOT" :: "(" :: notVar :: B' ∧
      "NOT" ∉ A' ∧ "NOT" ∉ B' ∧ notVar ∉ A' ∧
      ((p ≤ A.length ∧ A'.length = A.length + 1) ∨
       (A.length + 3 ≤ p ∧ A' = A)) := by
  by_cases hp : p ≤ A.length
  · refine ⟨pyInsert p x A, B, ?_, ?_, hNB, ?_, Or.inl ⟨hp, length_pyInsert ..⟩⟩
    · rw [he, pyInsert_append_left _ _ _ hp]
    · intro hc
      rcases (mem_pyInsert _ _ _ _).mp hc with hc | hc
      · exact hx1 hc.symm
      · exact hNA hc
    · intro hc
      rcases (mem_pyInsert _ _ _ _).mp hc with hc | hc
      · exact hx2 hc.symm
      · exact hnvA hc
  · have hp3 : A.length + 3 ≤ p := by omega
    refine ⟨A, pyInsert (p - (A.length + 3)) x B, ?_, hNA, ?_, hnvA,
      Or.inr ⟨hp3, rfl⟩⟩
    · rw [he]
      have hsplit : A ++ "NOT" :: "(" :: notVar :: B =
          (A ++ ["NOT", "(", notVar]) ++ B := by simp
      rw [hsplit,
        pyInsert_append_right _ _ _ (by simp; omega :
          (A ++ ["NOT", "(", notVar]).length ≤ p)]
      have harg : p - (A ++ ["NOT", "(", notVar]).length = p - (A.length + 3) := by
        simp
      rw [harg]
      simp
    · intro hc
      rcases (mem_pyInsert _ _ _ _).mp hc with hc | hc
      · exact hx1 hc.symm
      · exact hNB hc

/-- One iteration of the extra-parenthesis loop preserves the build
invariant (balance, the `NOT ( v` shape, and the presence of every
variable). -/
theorem BuildInv_step (vars : List String) (notVar : String) (c : Nat)
    (e e' : List String) (hnd : vars.Nodup) (hnv : notVar ∈ vars)
    (hNOTv : "NOT" ∉ vars) (hLPv : "(" ∉ vars) (hRPv : ")" ∉ vars)
    (hinv : BuildInv vars notVar e)
    (hstep : extra_group_step vars notVar c e = some e') :
    BuildInv vars notVar e' := by
  obtain ⟨hbal, ⟨A, B, he, hNA, hNB, hnvA⟩, hmemv⟩ := hinv
  subst he
  by_cases h2 : 2 ≤ vars.length
  · obtain ⟨i, j, hij, hjlen, hi1, hi2, hj1, hj2, hcase⟩ :=
      extra_group_analysis vars notVar c A B hnd hnv hNOTv hLPv hmemv hnvA h2
    rcases hcase with ⟨_, _, heq⟩ | ⟨_, heq⟩
    · rw [heq] at hstep
      obtain rfl := Option.some.inj hstep
      exact ⟨hbal, ⟨A, B, rfl, hNA, hNB, hnvA⟩, hmemv⟩
    · rw [heq] at hstep
      obtain rfl := Option.some.inj hstep
      have hRPnv : ")" ≠ notVar := fun hc => hRPv (hc ▸ hnv)
      have hLPnv : "(" ≠ notVar := fun hc => hLPv (hc ▸ hnv)
      obtain ⟨A1, B1, he1, hNA1, hNB1, hnvA1, hlen1⟩ :=
        NotShape_pyInsert notVar ")" _ j A B rfl hNA hNB hnvA
          (by decide) hRPnv hj1 hj2
      have hi1' : i ≠ A1.length + 1 ∧ i ≠ A1.length + 2 := by
        rcases hlen1 with ⟨hj', hl⟩ | ⟨hj', hl⟩
        · constructor <;> omega
        · rw [hl]
          exact ⟨hi1, hi2⟩
      obtain ⟨A2, B2, he2, hNA2, hNB2, hnvA2, _⟩ :=
        NotShape_pyInsert notVar "(" _ i A1 B1 he1 hNA1 hNB1 hnvA1
          (by decide) hLPnv hi1'.1 hi1'.2
      refine ⟨balanced_pyInsert_pair _ i j (le_of_lt hij) hjlen hbal,
        ⟨A2, B2, he2, hNA2, hNB2, hnvA2⟩, ?_⟩
      intro v hv
      rw [mem_pyInsert]
      right
      rw [mem_pyInsert]
      right
      exact hmemv v hv
  · rw [extra_group_step_none vars notVar c _ (by omega)] at hstep
    cases hstep

/-! ## Establishing the invariant before the extra-parenthesis loop -/

theorem tokWeight_eq_zero {t : String} (h1 : t ≠ "(") (h2 : t ≠ ")") :
    tokWeight t = 0 := by
  unfold tokWeight
  rw [if_neg h1, if_neg h2]

theorem pyInsert_length_eq_append (x : α) (l : List α) :
    pyInsert l.length x l = l ++ [x] := by
  unfold pyInsert
  rw [List.take_of_length_le (le_refl _), List.drop_of_length_le (le_refl _)]

theorem indexOf_lt_length_of_mem [BEq α] [LawfulBEq α] {x : α} {l : List α}
    (h : x ∈ l) : List.indexOf x l < l.length := by
  induction l with
  | nil => cases h
  | cons a l ih =>
    by_cases hax : (a == x) = true
    · simp [List.indexOf_cons, hax]
    · have hax' : (a == x) = false := by
        cases hb : a == x
        · rfl
        · exact absurd hb hax
      rw [List.indexOf_cons, hax']
      simp only [cond_false, List.length_cons]
      have hxl : x ∈ l := by
        rcases List.mem_cons.mp h with hc | hc
        · exact absurd (beq_iff_eq.mpr hc.symm) hax
        · exact hc
      have := ih hxl
      omega

theorem getElem_indexOf_of_mem [BEq α] [LawfulBEq α] {x : α} {l : List α}
    (h : x ∈ l) (hlt : List.indexOf x l < l.length) :
    l[List.indexOf x l] = x := by
  induction l with
  | nil => cases h
  | cons a l ih =>
    by_cases hax : (a == x) = true
    · have : List.indexOf x (a :: l) = 0 := by simp [List.indexOf_cons, hax]
      simp only [this, List.getElem_cons_zero]
      exact eq_of_beq hax
    · have hax' : (a == x) = false := by
        cases hb : a == x
        · rfl
        · exact absurd hb hax
      have hxl : x ∈ l := by
        rcases List.mem_cons.mp h with hc | hc
        · exact absurd (beq_iff_eq.mpr hc.symm) hax
        · exact hc
      have hidx : List.indexOf x (a :: l) = List.indexOf x l + 1 := by
        rw [List.indexOf_cons, hax']
        rfl
      simp only [hidx, List.getElem_cons_succ]
      exact ih hxl (indexOf_lt_length_of_mem hxl)

theorem mem_foldl_pyInsert {v : String} (l : List (Nat × String))
    (acc : List String) (hv : v ∈ acc) :
    v ∈ l.foldl (fun e io => pyInsert (2 * io.1 + 1) io.2 e) acc := by
  induction l generalizing acc with
  | nil => exact hv
  | cons a l ih => exact ih _ ((mem_pyInsert _ _ _ _).mpr (Or.inr hv))

theorem mem_foldl_pyInsert_sub (l : List (Nat × String)) (acc : List String)
    {t : String}
    (ht : t ∈ l.foldl (fun e io => pyInsert (2 * io.1 + 1) io.2 e) acc) :
    t ∈ acc ∨ t ∈ l.map Prod.snd := by
  induction l generalizing acc with
  | nil => exact Or.inl ht
  | cons a l ih =>
    rcases ih _ ht with h | h
    · rcases (mem_pyInsert _ _ _ _).mp h with h | h
      · right
        rw [h]
        simp
      · exact Or.inl h
    · right
      simp only [List.map_cons, List.mem_cons]
      exact Or.inr h

theorem mem_interleave_of_mem {vars operators : List String} {v : String}
    (hv : v ∈ vars) : v ∈ interleave vars operators :=
  mem_foldl_pyInsert _ _ hv

theorem mem_interleave {vars operators : List String} {t : String}
    (ht : t ∈ interleave vars operators) : t ∈ vars ∨ t ∈ operators := by
  rcases mem_foldl_pyInsert_sub _ _ ht with h | h
  · exact Or.inl h
  · right
    rwa [List.enum_map_snd] at h

theorem pyInsert_zero (x : α) (l : List α) : pyInsert 0 x l = x :: l := rfl

/-- The expression of lines 88-95 decomposes as
`A ++ NOT ( notVar ++ B` with `A` and `B` made only of variable and
operator tokens. -/
theorem afterNot_spec (vars operators : List String) (notVar : String)
    (hnv : notVar ∈ vars) (hNOTv : "NOT" ∉ vars) (hNOTo : "NOT" ∉ operators) :
    ∃ A B, afterNot vars operators notVar = A ++ "NOT" :: "(" :: notVar :: B ∧
      (∀ t ∈ A, t ∈ vars ∨ t ∈ operators) ∧
      (∀ t ∈ B, t ∈ vars ∨ t ∈ operators) ∧
      notVar ∉ A ∧
      (∀ v ∈ vars, v ∈ afterNot vars operators notVar) := by
  set e0 := interleave vars operators with he0
  have hnv0 : notVar ∈ e0 := mem_interleave_of_mem hnv
  set k := List.indexOf notVar e0 with hkdef
  have hklt : k < e0.length := indexOf_lt_length_of_mem hnv0
  have hNOTe0 : "NOT" ∉ e0 := by
    intro hc
    rcases mem_interleave hc with h | h
    exacts [hNOTv h, hNOTo h]
  have htklen : (e0.take k).length = k := by
    rw [List.length_take]
    omega
  have he1 : pyInsert k "NOT" e0 = e0.take k ++ "NOT" :: e0.drop k := rfl
  have hidxNOT : List.indexOf "NOT" (e0.take k ++ "NOT" :: e0.drop k) = k := by
    rw [indexOf_append_of_not_mem _
      (fun hc => hNOTe0 ((e0.take_prefix k).subset hc)), htklen]
    simp [List.indexOf_cons]
  have hdropk : e0.drop k = notVar :: e0.drop (k + 1) := by
    rw [List.drop_eq_getElem_cons hklt]
    congr 1
    exact getElem_indexOf_of_mem hnv0 hklt
  have he2 : afterNot vars operators notVar =
      e0.take k ++ "NOT" :: "(" :: notVar :: e0.drop (k + 1) := by
    show pyInsert
      (List.indexOf "NOT" (pyInsert (List.indexOf notVar e0) "NOT" e0) + 1) "("
      (pyInsert (List.indexOf notVar e0) "NOT" e0) = _
    rw [← hkdef, he1, hidxNOT]
    have hsplit : e0.take k ++ "NOT" :: e0.drop k =
        (e0.take k ++ ["NOT"]) ++ e0.drop k := by simp
    rw [hsplit, pyInsert_append_right _ _ _
      (by simp [htklen] : (e0.take k ++ ["NOT"]).length ≤ k + 1)]
    have hlen2 : (e0.take k ++ ["NOT"]).length = k + 1 := by simp [htklen]
    rw [hlen2, Nat.sub_self, pyInsert_zero, hdropk]
    simp
  refine ⟨e0.take k, e0.drop (k + 1), he2, ?_, ?_, ?_, ?_⟩
  · intro t ht
    exact mem_interleave ((e0.take_prefix k).subset ht)
  · intro t ht
    exact mem_interleave ((e0.drop_suffix (k + 1)).subset ht)
  · exact not_mem_take_of_le_indexOf (le_of_eq hkdef.symm)
  · intro v hv
    rw [he2]
    have hv0 : v ∈ e0 := mem_interleave_of_mem hv
    rw [← List.take_append_drop k e0, hdropk] at hv0
    rcases List.mem_append.mp hv0 with h | h
    · exact List.mem_append.mpr (Or.inl h)
    · rcases List.mem_cons.mp h with h | h
      · simp [h]
      · refine List.mem_append.mpr (Or.inr ?_)
        simp [h]

/-- Inserting the closing `)` of the `NOT` anywhere at or after the slot
following the negated variable produces an expression satisfying the
build invariant, provided everything else is parenthesis-free. -/
theorem BuildInv_of_close (vars : List String) (notVar : String)
    (A B : List String) (q : Nat)
    (hq3 : A.length + 3 ≤ q)
    (hqlen : q ≤ A.length + 3 + B.length)
    (htA : ∀ t ∈ A, t ≠ "(" ∧ t ≠ ")" ∧ t ≠ "NOT")
    (htB : ∀ t ∈ B, t ≠ "(" ∧ t ≠ ")" ∧ t ≠ "NOT")
    (hnvA : notVar ∉ A)
    (hnvLP : notVar ≠ "(") (hnvRP : notVar ≠ ")")
    (hmem : ∀ v ∈ vars, v ∈ A ++ "NOT" :: "(" :: notVar :: B) :
    BuildInv vars notVar (pyInsert q ")" (A ++ "NOT" :: "(" :: notVar :: B)) := by
  have hlen1 : (A ++ "NOT" :: notVar :: B).length = A.length + 2 + B.length := by
    simp
    omega
  have hb1 : Balanced (A ++ "NOT" :: notVar :: B) := by
    apply balanced_of_all_zero
    intro t ht
    rcases List.mem_append.mp ht with h | h
    · exact tokWeight_eq_zero (htA t h).1 (htA t h).2.1
    · rcases List.mem_cons.mp h with h | h
      · rw [h]; rfl
      · rcases List.mem_cons.mp h with h | h
        · rw [h]; exact tokWeight_eq_zero hnvLP hnvRP
        · exact tokWeight_eq_zero (htB t h).1 (htB t h).2.1
  have heq : A ++ "NOT" :: "(" :: notVar :: B =
      pyInsert (A.length + 1) "(" (A ++ "NOT" :: notVar :: B) := by
    have hsplit : A ++ "NOT" :: notVar :: B =
        (A ++ ["NOT"]) ++ notVar :: B := by simp
    rw [hsplit, pyInsert_append_right _ _ _
      (by simp : (A ++ ["NOT"]).length ≤ A.length + 1)]
    have hl : (A ++ ["NOT"]).length = A.length + 1 := by simp
    rw [hl, Nat.sub_self, pyInsert_zero]
    simp
  constructor
  · -- balance: view the `(` already present and the new `)` as one
    -- inserted pair over the parenthesis-free base expression
    rw [heq, pyInsert_comm _ _ _ _ _ (by omega) (by omega)]
    exact balanced_pyInsert_pair _ _ _ (by omega) (by omega) hb1
  constructor
  · have hNA : "NOT" ∉ A := fun hc => (htA _ hc).2.2 rfl
    have hNB : "NOT" ∉ B := fun hc => (htB _ hc).2.2 rfl
    obtain ⟨A', B', he', h1, h2, h3, _⟩ :=
      NotShape_pyInsert notVar ")" _ q A B rfl hNA hNB hnvA
        (by decide) (fun hc => hnvRP hc.symm) (by omega) (by omega)
    exact ⟨A', B', he', h1, h2, h3⟩
  · intro v hv
    exact (mem_pyInsert _ _ _ _).mpr (Or.inr (hmem v hv))

/-- `close_not` on an expression in shape `A ++ NOT ( notVar ++ B` always
inserts a single `)` at some position at or after the slot following the
negated variable. -/
theorem close_not_q (vars : List String) (notVar : String) (notPrec : Nat)
    (A B : List String)
    (hnd : vars.Nodup) (hnv : notVar ∈ vars)
    (hNOTv : "NOT" ∉ vars) (hLPv : "(" ∉ vars)
    (hmem : ∀ v ∈ vars, v ∈ A ++ "NOT" :: "(" :: notVar :: B)
    (hnvA : notVar ∉ A) (hNA : "NOT" ∉ A) :
    ∃ q, A.length + 3 ≤ q ∧ q ≤ A.length + 3 + B.length ∧
      close_not vars notVar notPrec (A ++ "NOT" :: "(" :: notVar :: B) =
        pyInsert q ")" (A ++ "NOT" :: "(" :: notVar :: B) := by
  set e := A ++ "NOT" :: "(" :: notVar :: B with he
  have hnvNOT : notVar ≠ "NOT" := fun hc => hNOTv (hc ▸ hnv)
  have hnvLP : notVar ≠ "(" := fun hc => hLPv (hc ▸ hnv)
  have helen : e.length = A.length + 3 + B.length := by rw [he]; exact shape_length
  have hidxnv : List.indexOf notVar e = A.length + 2 := by
    rw [he]; exact shape_indexOf_notVar hnvA hnvNOT hnvLP
  have hlook : lookupD (generate_indices_of_variables vars e) notVar =
      A.length + 2 := by
    rw [gi_lookupD hnd hnv, hidxnv]
  simp only [close_not]
  by_cases hp : notPrec = 0
  · rw [if_pos hp, hlook]
    have hpairmem : (notVar, A.length + 2) ∈
        generate_indices_of_variables vars e := by
      have := gi_mem_pair (e := e) hnv
      rwa [hidxnv] at this
    have hposlt : List.indexOf (notVar, A.length + 2)
        (generate_indices_of_variables vars e) <
        (generate_indices_of_variables vars e).length :=
      indexOf_lt_length_of_mem hpairmem
    have hgipos : (generate_indices_of_variables vars e)[List.indexOf
        (notVar, A.length + 2) (generate_indices_of_variables vars e)] =
        (notVar, A.length + 2) := getElem_indexOf_of_mem hpairmem hposlt
    by_cases hlast : List.indexOf (notVar, A.length + 2)
        (generate_indices_of_variables vars e) =
        (generate_indices_of_variables vars e).length - 1
    · rw [if_pos hlast]
      exact ⟨e.length, by omega, by omega,
        (pyInsert_length_eq_append ")" e).symm⟩
    · rw [if_neg hlast]
      set pos := List.indexOf (notVar, A.length + 2)
        (generate_indices_of_variables vars e) with hposdef
      have hpos1 : pos + 1 < (generate_indices_of_variables vars e).length := by
        omega
      have hgetD : (generate_indices_of_variables vars e).getD (pos + 1)
          ("", 0) = (generate_indices_of_variables vars e)[pos + 1] := by
        rw [List.getD_eq_getElem?_getD, List.getElem?_eq_getElem hpos1]
        rfl
      rw [hgetD]
      obtain ⟨hrv, hri⟩ := gi_snd_eq (List.getElem_mem hpos1)
      have hlookr : lookupD (generate_indices_of_variables vars e)
          ((generate_indices_of_variables vars e)[pos + 1]).1 =
          ((generate_indices_of_variables vars e)[pos + 1]).2 :=
        lookupD_eq_of_mem (gi_fst_nodup e hnd)
          (by rw [Prod.mk.eta]; exact List.getElem_mem hpos1)
      rw [hlookr]
      have hadj : ((generate_indices_of_variables vars e)[pos]).2 <
          ((generate_indices_of_variables vars e)[pos + 1]).2 :=
        gi_adjacent_lt hnd hmem hpos1
      have hposval : ((generate_indices_of_variables vars e)[pos]).2 =
          A.length + 2 := by
        rw [hgipos]
      have hrlt : ((generate_indices_of_variables vars e)[pos + 1]).2 <
          e.length := by
        rw [hri]
        exact indexOf_lt_length_of_mem (hmem _ hrv)
      exact ⟨((generate_indices_of_variables vars e)[pos + 1]).2 + 1,
        by omega, by omega, rfl⟩
  · rw [if_neg hp]
    have hidxNOT : List.indexOf "NOT" e = A.length := by
      rw [he]; exact shape_indexOf_NOT hNA
    rw [hidxNOT]
    exact ⟨A.length + 3, le_refl _, by omega, rfl⟩

theorem extra_group_step_isSome (vars : List String) (notVar : String)
    (c : Nat) (e : List String) (hnd : vars.Nodup) (hnv : notVar ∈ vars)
    (hNOTv : "NOT" ∉ vars) (hLPv : "(" ∉ vars)
    (hinv : BuildInv vars notVar e) (h2 : 2 ≤ vars.length) :
    ∃ e', extra_group_step vars notVar c e = some e' := by
  obtain ⟨_, ⟨A, B, he, _, _, hnvA⟩, hmemv⟩ := hinv
  subst he
  obtain ⟨i, j, _, _, _, _, _, _, hcase⟩ :=
    extra_group_analysis vars notVar c A B hnd hnv hNOTv hLPv hmemv hnvA h2
  rcases hcase with ⟨_, _, heq⟩ | ⟨_, heq⟩ <;> exact ⟨_, heq⟩

theorem build_loop_inv (vars : List String) (notVar : String)
    (choices : List Nat) (e E : List String) (hnd : vars.Nodup)
    (hnv : notVar ∈ vars) (hNOTv : "NOT" ∉ vars) (hLPv : "(" ∉ vars)
    (hRPv : ")" ∉ vars) (hinv : BuildInv vars notVar e)
    (hfold : choices.foldlM
      (fun acc c => extra_group_step vars notVar c acc) e = some E) :
    BuildInv vars notVar E := by
  induction choices generalizing e with
  | nil =>
    simp only [List.foldlM_nil] at hfold
    obtain rfl := Option.some.inj hfold
    exact hinv
  | cons c cs ih =>
    rw [List.foldlM_cons] at hfold
    cases hstep : extra_group_step vars notVar c e with
    | none =>
      rw [hstep] at hfold
      simp at hfold
    | some e1 =>
      rw [hstep] at hfold
      simp only [Option.bind_eq_bind, Option.some_bind] at hfold
      exact ih e1
        (BuildInv_step vars notVar c e e1 hnd hnv hNOTv hLPv hRPv hinv hstep)
        hfold

theorem build_loop_isSome (vars : List String) (notVar : String)
    (choices : List Nat) (e : List String) (hnd : vars.Nodup)
    (hnv : notVar ∈ vars) (hNOTv : "NOT" ∉ vars) (hLPv : "(" ∉ vars)
    (hRPv : ")" ∉ vars) (hinv : BuildInv vars notVar e)
    (h2 : 2 ≤ vars.length) :
    ∃ E, choices.foldlM
      (fun acc c => extra_group_step vars notVar c acc) e = some E := by
  induction choices generalizing e with
  | nil => exact ⟨e, by simp [List.foldlM_nil]⟩
  | cons c cs ih =>
    obtain ⟨e1, hstep⟩ :=
      extra_group_step_isSome vars notVar c e hnd hnv hNOTv hLPv hinv h2
    obtain ⟨E, hE⟩ := ih e1
      (BuildInv_step vars notVar c e e1 hnd hnv hNOTv hLPv hRPv hinv hstep)
    refine ⟨E, ?_⟩
    rw [List.foldlM_cons, hstep]
    simpa using hE

theorem build_eq (vars operators : List String) (notVar : String)
    (notPrec : Nat) (choices : List Nat) :
    build vars operators notVar notPrec choices =
      choices.foldlM (fun acc c => extra_group_step vars notVar c acc)
        (close_not vars notVar notPrec (afterNot vars operators notVar)) :=
  rfl

/-- The expression produced by lines 88-114 (before the extra-group loop)
satisfies the build invariant. -/
theorem base_inv (vars operators : List String) (notVar : String)
    (notPrec : Nat) (hval : ValidInput vars operators notVar) :
    BuildInv vars notVar
      (close_not vars notVar notPrec (afterNot vars operators notVar)) := by
  obtain ⟨hnd, hnv, hNOTv, hNOTo, hLPv, hLPo, hRPv, hRPo, _⟩ := hval
  obtain ⟨A, B, he, htA, htB, hnvA, hmemAll⟩ :=
    afterNot_spec vars operators notVar hnv hNOTv hNOTo
  have htA' : ∀ t ∈ A, t ≠ "(" ∧ t ≠ ")" ∧ t ≠ "NOT" := by
    intro t ht
    rcases htA t ht with h | h
    · exact ⟨fun hc => hLPv (hc ▸ h), fun hc => hRPv (hc ▸ h),
        fun hc => hNOTv (hc ▸ h)⟩
    · exact ⟨fun hc => hLPo (hc ▸ h), fun hc => hRPo (hc ▸ h),
        fun hc => hNOTo (hc ▸ h)⟩
  have htB' : ∀ t ∈ B, t ≠ "(" ∧ t ≠ ")" ∧ t ≠ "NOT" := by
    intro t ht
    rcases htB t ht with h | h
    · exact ⟨fun hc => hLPv (hc ▸ h), fun hc => hRPv (hc ▸ h),
        fun hc => hNOTv (hc ▸ h)⟩
    · exact ⟨fun hc => hLPo (hc ▸ h), fun hc => hRPo (hc ▸ h),
        fun hc => hNOTo (hc ▸ h)⟩
  have hNA : "NOT" ∉ A := fun hc => (htA' _ hc).2.2 rfl
  have hmem' : ∀ v ∈ vars, v ∈ A ++ "NOT" :: "(" :: notVar :: B := by
    intro v hv
    rw [← he]
    exact hmemAll v hv
  obtain ⟨q, hq3, hqlen, hclose⟩ :=
    close_not_q vars notVar notPrec A B hnd hnv hNOTv hLPv hmem' hnvA hNA
  rw [he, hclose]
  exact BuildInv_of_close vars notVar A B q hq3 hqlen htA' htB' hnvA
    (fun hc => hLPv (hc ▸ hnv)) (fun hc => hRPv (hc ▸ hnv)) hmem'

/-- Every successful `build` satisfies the invariant (balance, single
`NOT (`, variable presence). -/
theorem build_inv (vars operators : List String) (notVar : String)
    (notPrec : Nat) (choices : List Nat) (E : List String)
    (hval : ValidInput vars operators notVar)
    (hb : build vars operators notVar notPrec choices = some E) :
    BuildInv vars notVar E := by
  obtain ⟨hnd, hnv, hNOTv, hNOTo, hLPv, hLPo, hRPv, hRPo, _⟩ := hval
  rw [build_eq] at hb
  exact build_loop_inv vars notVar choices _ E hnd hnv hNOTv hLPv hRPv
    (base_inv vars operators notVar notPrec
      ⟨hnd, hnv, hNOTv, hNOTo, hLPv, hLPo, hRPv, hRPo, by assumption⟩) hb

/-- When there are at least two variables (or no extra groups are
requested), `build` succeeds. -/
theorem build_isSome (vars operators : List String) (notVar : String)
    (notPrec : Nat) (choices : List Nat)
    (hval : ValidInput vars operators notVar)
    (h2 : 2 ≤ vars.length ∨ choices = []) :
    ∃ E, build vars operators notVar notPrec choices = some E := by
  obtain ⟨hnd, hnv, hNOTv, hNOTo, hLPv, hLPo, hRPv, hRPo, harity⟩ := hval
  have hbase := base_inv vars operators notVar notPrec
    ⟨hnd, hnv, hNOTv, hNOTo, hLPv, hLPo, hRPv, hRPo, harity⟩
  rcases h2 with h2 | h2
  · rw [build_eq]
    exact build_loop_isSome vars notVar choices _ hnd hnv hNOTv hLPv hRPv
      hbase h2
  · subst h2
    rw [build_eq]
    exact ⟨close_not vars notVar notPrec (afterNot vars operators notVar),
      by simp [List.foldlM_nil]⟩

/-- The `NOT ( v` shape forces exactly one `NOT` token, immediately
followed by `(`. -/
theorem NotShape_count_one {notVar : String} {E : List String}
    (h : NotShape notVar E) (hnvNOT : notVar ≠ "NOT") :
    List.count "NOT" E = 1 ∧
      ∃ p, E[p]? = some "NOT" ∧ E[p + 1]? = some "(" := by
  obtain ⟨A, B, he, hNA, hNB, _⟩ := h
  subst he
  constructor
  · rw [List.count_append, List.count_eq_zero.mpr hNA]
    have h1 : List.count "NOT" ("NOT" :: "(" :: notVar :: B) =
        List.count "NOT" ("(" :: notVar :: B) + 1 := by
      rw [List.count_cons]
      simp
    have h2 : List.count "NOT" ("(" :: notVar :: B) =
        List.count "NOT" (notVar :: B) := by
      rw [List.count_cons]
      simp
    have h3 : List.count "NOT" (notVar :: B) = 0 := by
      rw [List.count_cons, List.count_eq_zero.mpr hNB]
      have hb : (notVar == "NOT") = false := beq_eq_false_iff_ne.mpr hnvNOT
      simp [hb]
    omega
  · refine ⟨A.length, ?_, ?_⟩
    · rw [List.getElem?_append_right (le_refl _)]
      simp
    · rw [List.getElem?_append_right (by omega : A.length ≤ A.length + 1)]
      have : A.length + 1 - A.length = 1 := by omega
      rw [this]
      simp

/-- Detailed behaviour of `close_not` under the low-precedence draw
(`notPrec = 0`): either the negated variable's entry is last in the dict
and `)` is appended at the very end, or the `)` is inserted at index
`parentheses[right] + 1`, i.e. immediately AFTER the next variable. -/
theorem close_not_low_spec (vars : List String) (notVar : String)
    (A B : List String)
    (hnd : vars.Nodup) (hnv : notVar ∈ vars)
    (hNOTv : "NOT" ∉ vars) (hLPv : "(" ∉ vars)
    (hmem : ∀ v ∈ vars, v ∈ A ++ "NOT" :: "(" :: notVar :: B)
    (hnvA : notVar ∉ A) :
    (List.indexOf (notVar,
        lookupD (generate_indices_of_variables vars
          (A ++ "NOT" :: "(" :: notVar :: B)) notVar)
        (generate_indices_of_variables vars (A ++ "NOT" :: "(" :: notVar :: B))
        = (generate_indices_of_variables vars
            (A ++ "NOT" :: "(" :: notVar :: B)).length - 1 →
      close_not vars notVar 0 (A ++ "NOT" :: "(" :: notVar :: B) =
        (A ++ "NOT" :: "(" :: notVar :: B) ++ [")"]) ∧
    (∀ hne : List.indexOf (notVar,
        lookupD (generate_indices_of_variables vars
          (A ++ "NOT" :: "(" :: notVar :: B)) notVar)
        (generate_indices_of_variables vars (A ++ "NOT" :: "(" :: notVar :: B))
        ≠ (generate_indices_of_variables vars
            (A ++ "NOT" :: "(" :: notVar :: B)).length - 1,
      ∃ hp : List.indexOf (notVar,
          lookupD (generate_indices_of_variables vars
            (A ++ "NOT" :: "(" :: notVar :: B)) notVar)
          (generate_indices_of_variables vars
            (A ++ "NOT" :: "(" :: notVar :: B)) + 1 <
          (generate_indices_of_variables vars
            (A ++ "NOT" :: "(" :: notVar :: B)).length,
        close_not vars notVar 0 (A ++ "NOT" :: "(" :: notVar :: B) =
          pyInsert
            (((generate_indices_of_variables vars
                (A ++ "NOT" :: "(" :: notVar :: B))[List.indexOf (notVar,
                  lookupD (generate_indices_of_variables vars
                    (A ++ "NOT" :: "(" :: notVar :: B)) notVar)
                  (generate_indices_of_variables vars
                    (A ++ "NOT" :: "(" :: notVar :: B)) + 1]).2 + 1)
            ")" (A ++ "NOT" :: "(" :: notVar :: B)) := by
  set e := A ++ "NOT" :: "(" :: notVar :: B with he
  have hnvNOT : notVar ≠ "NOT" := fun hc => hNOTv (hc ▸ hnv)
  have hnvLP : notVar ≠ "(" := fun hc => hLPv (hc ▸ hnv)
  have hidxnv : List.indexOf notVar e = A.length + 2 := by
    rw [he]; exact shape_indexOf_notVar hnvA hnvNOT hnvLP
  have hlook : lookupD (generate_indices_of_variables vars e) notVar =
      A.length + 2 := by
    rw [gi_lookupD hnd hnv, hidxnv]
  have hpairmem : (notVar, lookupD (generate_indices_of_variables vars e)
      notVar) ∈ generate_indices_of_variables vars e := by
    rw [hlook]
    have := gi_mem_pair (e := e) hnv
    rwa [hidxnv] at this
  have hposlt : List.indexOf (notVar, lookupD
      (generate_indices_of_variables vars e) notVar)
      (generate_indices_of_variables vars e) <
      (generate_indices_of_variables vars e).length :=
    indexOf_lt_length_of_mem hpairmem
  constructor
  · intro hlast
    simp only [close_not]
    rw [if_pos trivial, if_pos hlast]
  · intro hne
    refine ⟨by omega, ?_⟩
    simp only [close_not]
    rw [if_pos trivial, if_neg hne]
    set pos := List.indexOf (notVar, lookupD
      (generate_indices_of_variables vars e) notVar)
      (generate_indices_of_variables vars e) with hposdef
    have hpos1 : pos + 1 < (generate_indices_of_variables vars e).length := by
      omega
    have hgetD : (generate_indices_of_variables vars e).getD (pos + 1)
        ("", 0) = (generate_indices_of_variables vars e)[pos + 1] := by
      rw [List.getD_eq_getElem?_getD, List.getElem?_eq_getElem hpos1]
      rfl
    rw [hgetD]
    have hlookr : lookupD (generate_indices_of_variables vars e)
        ((generate_indices_of_variables vars e)[pos + 1]).1 =
        ((generate_indices_of_variables vars e)[pos + 1]).2 :=
      lookupD_eq_of_mem (gi_fst_nodup e hnd)
        (by rw [Prod.mk.eta]; exact List.getElem_mem hpos1)
    rw [hlookr]

/-! ## The evaluator: row structure -/

theorem lookup_pair_cons_poly {β : Type} (k a1 : String) (a2 : β)
    (d : List (String × β)) :
    List.lookup k ((a1, a2) :: d) =
      if k == a1 then some a2 else List.lookup k d := by
  cases h : k == a1 <;> simp [List.lookup, h]

theorem lookup_eq_of_mem_poly {β : Type} {d : List (String × β)} {k : String}
    {v : β} (hnd : (d.map Prod.fst).Nodup) (hmem : (k, v) ∈ d) :
    d.lookup k = some v := by
  induction d with
  | nil => cases hmem
  | cons a d ih =>
    obtain ⟨a1, a2⟩ := a
    rw [lookup_pair_cons_poly]
    rcases List.mem_cons.mp hmem with h | h
    · cases h
      simp
    · have hka : k ≠ a1 := by
        intro hc
        have : a1 ∈ d.map Prod.fst :=
          List.mem_map.mpr ⟨(k, v), h, by rw [hc]⟩
        exact (List.nodup_cons.mp hnd).1 this
      have hbeq : (k == a1) = false := beq_eq_false_iff_ne.mpr hka
      rw [hbeq]
      exact ih (List.nodup_cons.mp hnd).2 h

theorem mem_fst_of_lookup_eq_some {β : Type} {d : List (String × β)}
    {k : String} {v : β} (h : d.lookup k = some v) : k ∈ d.map Prod.fst := by
  induction d with
  | nil => cases h
  | cons a d ih =>
    obtain ⟨a1, a2⟩ := a
    rw [lookup_pair_cons_poly] at h
    by_cases hk : (k == a1) = true
    · have : k = a1 := eq_of_beq hk
      simp [this]
    · have hk' : (k == a1) = false := by
        cases hb : k == a1
        · rfl
        · exact absurd hb hk
      rw [hk'] at h
      simp only [List.map_cons, List.mem_cons]
      exact Or.inr (ih h)

theorem foldl_append_eq_map {α β : Type} (g : β → α) (l : List β)
    (acc : List α) :
    l.foldl (fun ls i => ls ++ [g i]) acc = acc ++ l.map g := by
  induction l generalizing acc with
  | nil => simp
  | cons b l ih => simp [ih]

theorem eval_lines (pyeval : String → String → List (String × Nat) → String)
    (ev : Evaluator) :
    (Evaluator.eval pyeval ev).lines =
      (List.range (2 ^ ev.vars.length)).map
        (mkLine pyeval ev.expression ev.expressionInternal ev.vars) := by
  show (List.range _).foldl _ [] = _
  rw [foldl_append_eq_map]
  simp

theorem eval_variables (pyeval : String → String → List (String × Nat) → String)
    (ev : Evaluator) : (Evaluator.eval pyeval ev).vars = ev.vars :=
  rfl

theorem lookup_append_of_none {β : Type} {l₁ : List (String × β)}
    (l₂ : List (String × β)) {k : String} (h : l₁.lookup k = none) :
    (l₁ ++ l₂).lookup k = l₂.lookup k := by
  induction l₁ with
  | nil => rfl
  | cons a l₁ ih =>
    obtain ⟨a1, a2⟩ := a
    rw [lookup_pair_cons_poly] at h
    rw [List.cons_append, lookup_pair_cons_poly]
    by_cases hk : (k == a1) = true
    · rw [hk] at h
      cases h
    · have hk' : (k == a1) = false := by
        cases hb : k == a1
        · rfl
        · exact absurd hb hk
      rw [hk'] at h ⊢
      exact ih h

theorem dset_append {β : Type} (d : List (String × β)) (k : String) (v : β)
    (h : d.lookup k = none) : dset d k v = d ++ [(k, v)] := by
  unfold dset
  rw [h]
  rfl

theorem foldl_dset_eq (f : Nat × String → Nat) (l : List (Nat × String))
    (acc : List (String × Nat))
    (hdisj : ∀ jv ∈ l, acc.lookup jv.2 = none)
    (hnd : (l.map Prod.snd).Nodup) :
    l.foldl (fun d jv => dset d jv.2 (f jv)) acc =
      acc ++ l.map (fun jv => (jv.2, f jv)) := by
  induction l generalizing acc with
  | nil => simp
  | cons a l ih =>
    simp only [List.foldl_cons]
    rw [dset_append _ _ _ (hdisj a (List.mem_cons_self a l))]
    rw [ih]
    · simp
    · intro jv hjv
      rw [lookup_append_of_none _ (hdisj jv (List.mem_cons_of_mem a hjv))]
      rw [lookup_pair_cons_poly]
      have hne : jv.2 ≠ a.2 := by
        intro hc
        have h1 : a.2 ∈ l.map Prod.snd := List.mem_map.mpr ⟨jv, hjv, hc⟩
        rw [List.map_cons] at hnd
        exact (List.nodup_cons.mp hnd).1 h1
      rw [beq_eq_false_iff_ne.mpr hne]
      rfl
    · rw [List.map_cons] at hnd
      exact (List.nodup_cons.mp hnd).2

theorem mkAssign_eq (vs : List String) (i : Nat) (hnd : vs.Nodup) :
    mkAssign vs i = vs.enum.map (fun jv =>
      (jv.2, if i &&& (1 <<< (vs.length - jv.1 - 1)) ≠ 0 then 1 else 0)) := by
  unfold mkAssign
  rw [foldl_dset_eq]
  · simp
  · intro jv _
    rfl
  · rw [List.enum_map_snd]
    exact hnd

theorem mkAssign_fst (vs : List String) (i : Nat) (hnd : vs.Nodup) :
    (mkAssign vs i).map Prod.fst = vs := by
  rw [mkAssign_eq vs i hnd, List.map_map]
  have : (Prod.fst ∘ fun jv : Nat × String =>
      (jv.2, if i &&& (1 <<< (vs.length - jv.1 - 1)) ≠ 0 then 1 else 0)) =
      Prod.snd := rfl
  rw [this, List.enum_map_snd]

theorem mkLine_lookup (pyeval : String → String → List (String × Nat) → String)
    (expr exprInt : String) (vs : List String) (hnd : vs.Nodup)
    (hsp : " " ∉ vs) (i j : Nat) (hj : j < vs.length) :
    (mkLine pyeval expr exprInt vs i).lookup (vs[j]) =
      some (Cell.num
        (if i &&& (1 <<< (vs.length - j - 1)) ≠ 0 then 1 else 0)) := by
  unfold mkLine
  have hglobs := mkAssign_eq vs i hnd
  have hcells : (mkAssign vs i).map (fun kv => (kv.1, Cell.num kv.2)) =
      vs.enum.map (fun jv => (jv.2, Cell.num
        (if i &&& (1 <<< (vs.length - jv.1 - 1)) ≠ 0 then 1 else 0))) := by
    rw [hglobs, List.map_map]
    rfl
  have hfst : ((mkAssign vs i).map
      (fun kv => (kv.1, Cell.num kv.2))).map Prod.fst = vs := by
    rw [List.map_map]
    have : (Prod.fst ∘ fun kv : String × Nat => (kv.1, Cell.num kv.2)) =
        Prod.fst := rfl
    rw [this, mkAssign_fst vs i hnd]
  have hlkn : ((mkAssign vs i).map
      (fun kv => (kv.1, Cell.num kv.2))).lookup " " = none := by
    cases hl : ((mkAssign vs i).map (fun kv => (kv.1, Cell.num kv.2))).lookup " "
    · rfl
    · exfalso
      have hm := mem_fst_of_lookup_eq_some hl
      rw [hfst] at hm
      exact hsp hm
  rw [dset_append _ _ _ hlkn]
  apply lookup_eq_of_mem_poly
  · rw [List.map_append, hfst]
    simp only [List.map_cons, List.map_nil]
    rw [List.nodup_append]
    refine ⟨hnd, List.nodup_singleton _, ?_⟩
    intro x hx hx2
    simp at hx2
    subst hx2
    exact hsp hx
  · apply List.mem_append.mpr
    left
    rw [hcells]
    have hje : j < vs.enum.length := by simpa using hj
    have hjem : j < (vs.enum.map (fun jv => (jv.2, Cell.num
        (if i &&& (1 <<< (vs.length - jv.1 - 1)) ≠ 0 then 1 else 0)))).length := by
      simpa using hj
    have hget : (vs.enum.map (fun jv => (jv.2, Cell.num
        (if i &&& (1 <<< (vs.length - jv.1 - 1)) ≠ 0 then 1 else 0))))[j] =
        (vs[j], Cell.num
          (if i &&& (1 <<< (vs.length - j - 1)) ≠ 0 then 1 else 0)) := by
      rw [List.getElem_map]
      rw [List.getElem_enum]
    rw [← hget]
    exact List.getElem_mem _

theorem and_shift_ne_zero (i k : Nat) :
    (i &&& (1 <<< k) ≠ 0) ↔ i.testBit k := by
  rw [Nat.one_shiftLeft, Nat.and_two_pow]
  cases h : i.testBit k
  · simp
  · simp

/-! ## String replacement: uppercase keywords never survive nor reappear -/

theorem infix_append_left_elim {rep R target : List Char}
    (hdis : ∀ ch ∈ rep, ch ∉ target) (htne : target ≠ [])
    (h : target <:+: rep ++ R) : target <:+: R := by
  induction rep with
  | nil => simpa using h
  | cons r rep ih =>
    rw [List.cons_append, List.infix_cons_iff] at h
    rcases h with h | h
    · obtain ⟨t0, t', rfl⟩ := List.exists_cons_of_ne_nil htne
      rw [List.cons_prefix_cons] at h
      exact absurd (h.1 ▸ List.mem_cons_self t0 t')
        (hdis r (List.mem_cons_self r rep))
    · exact ih (fun ch hch => hdis ch (List.mem_cons_of_mem r hch)) h

theorem prefix_replaceAll (pat rep : List Char) (hrep : rep ≠ []) :
    ∀ n (t : List Char), t.length ≤ n → ∀ q : List Char,
      (∀ ch ∈ rep, ch ∉ q) → q <+: replaceAll pat rep t → q <+: t := by
  intro n
  induction n with
  | zero =>
    intro t htlen q _ h
    have ht : t = [] := List.length_eq_zero.mp (by omega)
    subst ht
    simpa [replaceAll] using h
  | succ n ih =>
    intro t htlen q hdis h
    match t with
    | [] => simpa [replaceAll] using h
    | c :: rest =>
      simp only [replaceAll] at h
      by_cases hc : (pat.isPrefixOf (c :: rest) && !pat.isEmpty) = true
      · rw [if_pos hc] at h
        cases q with
        | nil => exact List.nil_prefix
        | cons q0 q' =>
          obtain ⟨r, rep', hreq⟩ := List.exists_cons_of_ne_nil hrep
          rw [hreq, List.cons_append, List.cons_prefix_cons] at h
          exact absurd (h.1 ▸ List.mem_cons_self q0 q')
            (hdis r (by rw [hreq]; exact List.mem_cons_self r rep'))
      · rw [if_neg hc] at h
        cases q with
        | nil => exact List.nil_prefix
        | cons q0 q' =>
          rw [List.cons_prefix_cons] at h ⊢
          refine ⟨h.1, ih rest (by simp at htlen; omega) q' ?_ h.2⟩
          intro ch hch hq
          exact hdis ch hch (List.mem_cons_of_mem q0 hq)

theorem not_infix_replaceAll (pat rep target : List Char) (hrep : rep ≠ [])
    (hdis : ∀ ch ∈ rep, ch ∉ target) :
    ∀ n (t : List Char), t.length ≤ n → ¬ target <:+: t →
      ¬ target <:+: replaceAll pat rep t := by
  intro n
  induction n with
  | zero =>
    intro t htlen hno
    have ht : t = [] := List.length_eq_zero.mp (by omega)
    subst ht
    simpa [replaceAll] using hno
  | succ n ih =>
    intro t htlen hno
    have htne : target ≠ [] := by
      intro hc
      exact hno (hc ▸ List.nil_infix)
    match t with
    | [] => simpa [replaceAll] using hno
    | c :: rest =>
      simp only [replaceAll]
      by_cases hc : (pat.isPrefixOf (c :: rest) && !pat.isEmpty) = true
      · rw [if_pos hc]
        intro h
        have hpatlen : 1 ≤ pat.length := by
          rcases Bool.and_eq_true_iff.mp hc with ⟨_, h2⟩
          rw [Bool.not_eq_true'] at h2
          cases pat
          · simp at h2
          · simp
        have h2 := infix_append_left_elim hdis htne h
        have hdroplen : ((c :: rest).drop pat.length).length ≤ n := by
          simp [List.length_drop] at *
          omega
        have hnodrop : ¬ target <:+: (c :: rest).drop pat.length := by
          intro hcc
          exact hno (hcc.trans (List.drop_suffix _ _).isInfix)
        exact ih _ hdroplen hnodrop h2
      · rw [if_neg hc]
        intro h
        rw [List.infix_cons_iff] at h
        rcases h with h | h
        · obtain ⟨t0, t', rfl⟩ := List.exists_cons_of_ne_nil htne
          rw [List.cons_prefix_cons] at h
          have hq : t' <+: rest := by
            apply prefix_replaceAll pat rep hrep rest.length rest (le_refl _) t'
            · intro ch hch hq
              exact hdis ch hch (List.mem_cons_of_mem t0 hq)
            · exact h.2
          exact hno (List.IsPrefix.isInfix
            (by rw [h.1]; exact List.cons_prefix_cons.mpr ⟨rfl, hq⟩))
        · have hnorest : ¬ target <:+: rest := by
            intro hcc
            exact hno (List.infix_cons_iff.mpr (Or.inr hcc))
          exact ih rest (by simp at htlen; omega) hnorest h

theorem not_infix_self_replaceAll (pat rep : List Char) (hrep : rep ≠ [])
    (hpat : pat ≠ []) (hdis : ∀ ch ∈ rep, ch ∉ pat) :
    ∀ n (t : List Char), t.length ≤ n → ¬ pat <:+: replaceAll pat rep t := by
  intro n
  induction n with
  | zero =>
    intro t htlen
    have ht : t = [] := List.length_eq_zero.mp (by omega)
    subst ht
    simp [replaceAll]
    exact hpat
  | succ n ih =>
    intro t htlen
    match t with
    | [] =>
      simp [replaceAll]
      exact hpat
    | c :: rest =>
      simp only [replaceAll]
      by_cases hc : (pat.isPrefixOf (c :: rest) && !pat.isEmpty) = true
      · rw [if_pos hc]
        intro h
        have h2 := infix_append_left_elim hdis hpat h
        have hdroplen : ((c :: rest).drop pat.length).length ≤ n := by
          have hpatlen : 1 ≤ pat.length := by
            rcases Bool.and_eq_true_iff.mp hc with ⟨_, h2'⟩
            rw [Bool.not_eq_true'] at h2'
            cases pat
            · simp at h2'
            · simp
          simp [List.length_drop] at *
          omega
        exact ih _ hdroplen h2
      · rw [if_neg hc]
        intro h
        rw [List.infix_cons_iff] at h
        rcases h with h | h
        · obtain ⟨p0, p', hpeq⟩ := List.exists_cons_of_ne_nil hpat
          rw [hpeq, List.cons_prefix_cons] at h
          have hq : p' <+: rest := by
            apply prefix_replaceAll (p0 :: p') rep hrep rest.length rest
              (le_refl _) p'
            · intro ch hch hqq
              exact hdis ch hch (by rw [hpeq]; exact List.mem_cons_of_mem p0 hqq)
            · exact h.2
          have hpre : pat.isPrefixOf (c :: rest) = true := by
            rw [List.isPrefixOf_iff_prefix, hpeq]
            exact List.cons_prefix_cons.mpr ⟨h.1, hq⟩
          have hempty : pat.isEmpty = false := by
            cases pat
            · exact absurd rfl hpat
            · rfl
          rw [hpre, hempty] at hc
          simp at hc
        · exact ih rest (by simp at htlen; omega) h

/-! ## Claim theorems -/

/-- C1, counterexample: with a single variable, zero operators (so
`|operators| = |variables| - 1` holds) and one extra parenthesis group,
`build()` fails — `random.choice` is called on the empty list
`list(parentheses.keys())[:-1]` and raises `IndexError`. -/
theorem claim1_counterexample : build ["A"] [] "A" 0 [0] = none := by
  rfl

/-- C1 (amended): for every valid `(variables, operators)` with
`|operators| = |variables| - 1`, provided there are at least two
variables or no extra parenthesis groups are requested, `build()`
completes without failing and the resulting token sequence has balanced
parentheses (the running depth count never goes negative and ends at
zero).  The single-variable case with one or more extra groups fails, see
the counterexample. -/
theorem claim1_build_balanced (vars operators : List String)
    (notVar : String) (notPrec : Nat) (choices : List Nat)
    (hval : ValidInput vars operators notVar)
    (h2 : 2 ≤ vars.length ∨ choices = []) :
    ∃ E, build vars operators notVar notPrec choices = some E ∧ Balanced E := by
  obtain ⟨E, hE⟩ := build_isSome vars operators notVar notPrec choices hval h2
  exact ⟨E, hE, (build_inv vars operators notVar notPrec choices E hval hE).1⟩

theorem claim1_build_balanced_witness :
    ValidInput ["A", "B"] ["AND"] "A" ∧
    (2 ≤ (["A", "B"] : List String).length ∨ ([0] : List Nat) = []) ∧
    ∃ E, build ["A", "B"] ["AND"] "A" 1 [0] = some E ∧ Balanced E :=
  ⟨by decide, by decide,
    claim1_build_balanced ["A", "B"] ["AND"] "A" 1 [0] (by decide) (by decide)⟩

/-- C2, counterexample: variables `A B C` (shuffled layout `A AND B OR C`),
`NOT` on `A` with the high-precedence draw and two extra groups produce
`( NOT ( A ) AND ( B ) OR C )`: the `(` at index 0 is matched exactly by
the `)` at the last index, so a parenthesis group spans the entire token
sequence. -/
theorem claim2_counterexample :
    build ["A", "B", "C"] ["AND", "OR"] "A" 1 [0, 1] =
      some ["(", "NOT", "(", "A", ")", "AND", "(", "B", ")", "OR", "C", ")"] ∧
    FullSpanGroup
      ["(", "NOT", "(", "A", ")", "AND", "(", "B", ")", "OR", "C", ")"] := by
  constructor
  · rfl
  · decide

/-- C2 (amended): each extra parenthesis group, at the moment it is
inserted, never has its own `(` at index 0 together with its own `)` at
the last index of the new expression — a candidate group that would span
the whole current expression is skipped by the guard of
`__insert_parentheses`.  (As the counterexample shows, a *matched* pair
spanning the whole sequence can still arise from the interaction of an
inserted group with previously inserted parentheses.) -/
theorem claim2_inserted_group_not_full_span
    (vars : List String) (notVar : String) (c : Nat) (e E : List String)
    (hnd : vars.Nodup) (hnv : notVar ∈ vars)
    (hNOTv : "NOT" ∉ vars) (hLPv : "(" ∉ vars)
    (hshape : NotShape notVar e) (hmem : ∀ v ∈ vars, v ∈ e)
    (hstep : extra_group_step vars notVar c e = some E) :
    E = e ∨ ∃ i j, i < j ∧ j ≤ e.length ∧
      E = pyInsert i "(" (pyInsert j ")" e) ∧
      ¬(i = 0 ∧ j + 1 = E.length - 1) := by
  obtain ⟨A, B, he, hNA, hNB, hnvA⟩ := hshape
  subst he
  by_cases h2 : 2 ≤ vars.length
  · obtain ⟨i, j, hij, hjlen, _, _, _, _, hcase⟩ :=
      extra_group_analysis vars notVar c A B hnd hnv hNOTv hLPv hmem hnvA h2
    rcases hcase with ⟨_, _, heq⟩ | ⟨hg, heq⟩
    · rw [heq] at hstep
      exact Or.inl (Option.some.inj hstep).symm
    · rw [heq] at hstep
      have hEeq := (Option.some.inj hstep)
      right
      refine ⟨i, j, hij, hjlen, hEeq.symm, ?_⟩
      rintro ⟨hi0, hjE⟩
      apply hg
      refine ⟨hi0, ?_⟩
      have hlE : E.length =
          (A ++ "NOT" :: "(" :: notVar :: B).length + 2 := by
        rw [← hEeq, length_pyInsert, length_pyInsert]
      omega
  · rw [extra_group_step_none vars notVar c _ (by omega)] at hstep
    cases hstep

theorem claim2_inserted_group_not_full_span_witness :
    (["A", "B", "C"] : List String).Nodup ∧ "A" ∈ (["A", "B", "C"] : List String) ∧
    "NOT" ∉ (["A", "B", "C"] : List String) ∧ "(" ∉ (["A", "B", "C"] : List String) ∧
    NotShape "A" ["NOT", "(", "A", ")", "AND", "B", "OR", "C"] ∧
    (∀ v ∈ (["A", "B", "C"] : List String),
      v ∈ (["NOT", "(", "A", ")", "AND", "B", "OR", "C"] : List String)) ∧
    ((["(", "NOT", "(", "A", ")", "AND", "B", ")", "OR", "C"] : List String) =
        ["NOT", "(", "A", ")", "AND", "B", "OR", "C"] ∨
      ∃ i j, i < j ∧
        j ≤ (["NOT", "(", "A", ")", "AND", "B", "OR", "C"] : List String).length ∧
        (["(", "NOT", "(", "A", ")", "AND", "B", ")", "OR", "C"] : List String) =
          pyInsert i "(" (pyInsert j ")"
            ["NOT", "(", "A", ")", "AND", "B", "OR", "C"]) ∧
        ¬(i = 0 ∧ j + 1 =
          (["(", "NOT", "(", "A", ")", "AND", "B", ")", "OR", "C"] :
            List String).length - 1)) :=
  ⟨by decide, by decide, by decide, by decide,
    ⟨[], [")", "AND", "B", "OR", "C"], rfl, by decide, by decide, by decide⟩,
    by decide,
    claim2_inserted_group_not_full_span ["A", "B", "C"] "A" 0
      ["NOT", "(", "A", ")", "AND", "B", "OR", "C"]
      ["(", "NOT", "(", "A", ")", "AND", "B", ")", "OR", "C"]
      (by decide) (by decide) (by decide) (by decide)
      ⟨[], [")", "AND", "B", "OR", "C"], rfl, by decide, by decide, by decide⟩
      (by decide) (by rfl)⟩

/-- C6: every expression produced by `build()` contains exactly one `NOT`
token, and the token immediately following it is `(` — no later insertion
separates them or introduces a second `NOT`. -/
theorem claim6_single_not (vars operators : List String) (notVar : String)
    (notPrec : Nat) (choices : List Nat) (E : List String)
    (hval : ValidInput vars operators notVar)
    (hb : build vars operators notVar notPrec choices = some E) :
    List.count "NOT" E = 1 ∧
      ∃ p, E[p]? = some "NOT" ∧ E[p + 1]? = some "(" := by
  have hinv := build_inv vars operators notVar notPrec choices E hval hb
  have hnvNOT : notVar ≠ "NOT" := fun hc => hval.2.2.1 (hc ▸ hval.2.1)
  exact NotShape_count_one hinv.2.1 hnvNOT

theorem claim6_single_not_witness :
    ValidInput ["A", "B", "C"] ["AND", "OR"] "B" ∧
    (List.count "NOT" ["(", "A", "AND", "NOT", "(", "B", ")", "OR", "C", ")"] = 1 ∧
      ∃ p, (["(", "A", "AND", "NOT", "(", "B", ")", "OR", "C", ")"] :
          List String)[p]? = some "NOT" ∧
        (["(", "A", "AND", "NOT", "(", "B", ")", "OR", "C", ")"] :
          List String)[p + 1]? = some "(") :=
  ⟨by decide,
    claim6_single_not ["A", "B", "C"] ["AND", "OR"] "B" 0 [0]
      ["(", "A", "AND", "NOT", "(", "B", ")", "OR", "C", ")"]
      (by decide) (by rfl)⟩

/-- C7: constructing an `ExpressionBuilder` succeeds exactly when
`len(operators) == len(variables) - 1` (integer arithmetic, so the empty
variable list always fails); otherwise the `assert` on line 71 fails that
construction call. -/
theorem claim7_init_arity (vars operators : List String) (paren_count : Nat)
    (shuffledVars shuffledOps : List String) (notVar : String)
    (notPrec : Nat) :
    (∃ b, init vars operators paren_count shuffledVars shuffledOps notVar
        notPrec = some b) ↔
      (operators.length : Int) = (vars.length : Int) - 1 := by
  unfold init
  by_cases h : vars.length = operators.length + 1
  · rw [if_pos h]
    constructor
    · intro _
      omega
    · intro _
      exact ⟨_, rfl⟩
  · rw [if_neg h]
    constructor
    · rintro ⟨b, hb⟩
      cases hb
    · intro hI
      exfalso
      omega

/-- Inserting a token right after an element's first occurrence leaves the
element at its index with the new token directly after it. -/
theorem pyInsert_after_getElem {e : List String} {v : String} (x : String)
    (hv : v ∈ e) :
    (pyInsert (List.indexOf v e + 1) x e)[List.indexOf v e]? = some v ∧
    (pyInsert (List.indexOf v e + 1) x e)[List.indexOf v e + 1]? = some x := by
  have hlt : List.indexOf v e < e.length := indexOf_lt_length_of_mem hv
  have htake : (e.take (List.indexOf v e + 1)).length =
      List.indexOf v e + 1 := by
    rw [List.length_take]
    omega
  constructor
  · show (e.take (List.indexOf v e + 1) ++
      x :: e.drop (List.indexOf v e + 1))[List.indexOf v e]? = some v
    rw [List.getElem?_append, htake, if_pos (by omega), List.getElem?_take,
      if_pos (by omega), List.getElem?_eq_getElem hlt,
      getElem_indexOf_of_mem hv hlt]
  · show (e.take (List.indexOf v e + 1) ++
      x :: e.drop (List.indexOf v e + 1))[List.indexOf v e + 1]? = some x
    rw [List.getElem?_append_right (le_of_eq htake), htake, Nat.sub_self]
    simp

/-- C4, counterexample: variables `A B`, operator `AND`, `NOT` on `A`
with the low-precedence draw.  Before the `)` insertion the token list is
`NOT ( A AND B` with the next variable `B` at index 4; the claim
(insert `)` immediately before the next variable's position) would leave
`)` at index 4, but the code inserts at `parentheses[right] + 1`,
leaving `B` at index 4 and `)` at index 5. -/
theorem claim4_counterexample :
    build ["A", "B"] ["AND"] "A" 0 [] =
      some ["NOT", "(", "A", "AND", "B", ")"] ∧
    (["NOT", "(", "A", "AND", "B", ")"] : List String)[4]? = some "B" ∧
    (["NOT", "(", "A", "AND", "B", ")"] : List String)[4]? ≠ some ")" := by
  refine ⟨by rfl, by rfl, by decide⟩

/-- C4 (amended): under the low-precedence draw (`notPrec = 0`), the
closing `)` of the NOT is inserted immediately AFTER the next variable in
index order — at index `parentheses[right] + 1`, so the next variable
keeps its index and `)` directly follows it; when the negated variable is
the last one in index order, `)` is appended at the very end instead. -/
theorem claim4_close_low (vars operators : List String) (notVar : String)
    (E : List String) (hval : ValidInput vars operators notVar)
    (hb : build vars operators notVar 0 [] = some E) :
    (List.indexOf (notVar,
        lookupD (generate_indices_of_variables vars
          (afterNot vars operators notVar)) notVar)
        (generate_indices_of_variables vars (afterNot vars operators notVar)) =
        (generate_indices_of_variables vars
          (afterNot vars operators notVar)).length - 1 →
      E = afterNot vars operators notVar ++ [")"]) ∧
    (List.indexOf (notVar,
        lookupD (generate_indices_of_variables vars
          (afterNot vars operators notVar)) notVar)
        (generate_indices_of_variables vars (afterNot vars operators notVar)) ≠
        (generate_indices_of_variables vars
          (afterNot vars operators notVar)).length - 1 →
      ∃ right, right ∈ vars ∧ right ≠ notVar ∧
        E = pyInsert (List.indexOf right (afterNot vars operators notVar) + 1)
          ")" (afterNot vars operators notVar) ∧
        E[List.indexOf right (afterNot vars operators notVar)]? = some right ∧
        E[List.indexOf right (afterNot vars operators notVar) + 1]? =
          some ")") := by
  obtain ⟨hnd, hnv, hNOTv, hNOTo, hLPv, hLPo, hRPv, hRPo, _⟩ := hval
  obtain ⟨A, B, he, htA, htB, hnvA, hmemAll⟩ :=
    afterNot_spec vars operators notVar hnv hNOTv hNOTo
  have hE : E = close_not vars notVar 0 (afterNot vars operators notVar) := by
    rw [build_eq] at hb
    simp only [List.foldlM_nil] at hb
    exact (Option.some.inj hb).symm
  have hmem' : ∀ v ∈ vars, v ∈ A ++ "NOT" :: "(" :: notVar :: B :=
    fun v hv => he ▸ hmemAll v hv
  have hspec := close_not_low_spec vars notVar A B hnd hnv hNOTv hLPv hmem' hnvA
  rw [← he] at hspec
  constructor
  · intro hlast
    rw [hE, hspec.1 hlast]
  · intro hne
    obtain ⟨hp, heq⟩ := hspec.2 hne
    set g := generate_indices_of_variables vars (afterNot vars operators notVar)
      with hg
    obtain ⟨hrv, hri⟩ := gi_snd_eq (List.getElem_mem hp)
    set pos := List.indexOf (notVar, lookupD g notVar) g with hpos
    refine ⟨(g[pos + 1]).1, hrv, ?_, ?_, ?_, ?_⟩
    · -- the next entry's variable differs from the negated one
      have hpairmem : (notVar, lookupD g notVar) ∈ g := by
        rw [hg, gi_lookupD hnd hnv]
        exact gi_mem_pair hnv
      have hposval : g[pos] = (notVar, lookupD g notVar) :=
        getElem_indexOf_of_mem hpairmem (by rw [← hpos]; omega)
      have hnefst := map_fst_nodup_getElem_ne (gi_fst_nodup _ hnd)
        (show pos < g.length by omega) hp (by omega)
      intro hc
      apply hnefst
      rw [hposval, hc]
    · rw [hE, heq, hri]
    · rw [hE, heq, hri]
      exact (pyInsert_after_getElem ")" (hmemAll _ hrv)).1
    · rw [hE, heq, hri]
      exact (pyInsert_after_getElem ")" (hmemAll _ hrv)).2

theorem claim4_close_low_witness :
    ValidInput ["A", "B"] ["AND"] "A" ∧
    ((List.indexOf ("A",
        lookupD (generate_indices_of_variables ["A", "B"]
          (afterNot ["A", "B"] ["AND"] "A")) "A")
        (generate_indices_of_variables ["A", "B"]
          (afterNot ["A", "B"] ["AND"] "A")) =
        (generate_indices_of_variables ["A", "B"]
          (afterNot ["A", "B"] ["AND"] "A")).length - 1 →
      ["NOT", "(", "A", "AND", "B", ")"] =
        afterNot ["A", "B"] ["AND"] "A" ++ [")"]) ∧
     (List.indexOf ("A",
        lookupD (generate_indices_of_variables ["A", "B"]
          (afterNot ["A", "B"] ["AND"] "A")) "A")
        (generate_indices_of_variables ["A", "B"]
          (afterNot ["A", "B"] ["AND"] "A")) ≠
        (generate_indices_of_variables ["A", "B"]
          (afterNot ["A", "B"] ["AND"] "A")).length - 1 →
      ∃ right, right ∈ (["A", "B"] : List String) ∧ right ≠ "A" ∧
        (["NOT", "(", "A", "AND", "B", ")"] : List String) =
          pyInsert (List.indexOf right (afterNot ["A", "B"] ["AND"] "A") + 1)
            ")" (afterNot ["A", "B"] ["AND"] "A") ∧
        (["NOT", "(", "A", "AND", "B", ")"] :
          List String)[List.indexOf right (afterNot ["A", "B"] ["AND"] "A")]? =
          some right ∧
        (["NOT", "(", "A", "AND", "B", ")"] :
          List String)[List.indexOf right
            (afterNot ["A", "B"] ["AND"] "A") + 1]? = some ")")) :=
  ⟨by decide, claim4_close_low ["A", "B"] ["AND"] "A"
    ["NOT", "(", "A", "AND", "B", ")"] (by decide) (by rfl)⟩

/-- C3: `eval()` produces exactly `2^n` rows in increasing `i` order, and
in row `i` the variable at sorted position `j` is assigned `1` exactly
when bit `n - j - 1` of `i` is set (first-sorted variable is the most
significant bit, rows run from all-false to all-true). -/
theorem claim3_eval_rows
    (pyeval : String → String → List (String × Nat) → String)
    (expr : String) (vs : List String) (hnd : vs.Nodup) (hsp : " " ∉ vs) :
    (Evaluator.eval pyeval (Evaluator.mkE expr vs)).lines.length =
      2 ^ vs.length ∧
    ∀ i, i < 2 ^ vs.length →
      ∀ j, ∀ hj : j < (Evaluator.mkE expr vs).vars.length,
        ∃ row,
          (Evaluator.eval pyeval (Evaluator.mkE expr vs)).lines[i]? =
            some row ∧
          row.lookup ((Evaluator.mkE expr vs).vars[j]) =
            some (Cell.num
              (if Nat.testBit i (vs.length - j - 1) then 1 else 0)) := by
  have hsvlen : (Evaluator.mkE expr vs).vars.length = vs.length :=
    (List.perm_insertionSort _ vs).length_eq
  have hsvnd : (Evaluator.mkE expr vs).vars.Nodup :=
    ((List.perm_insertionSort _ vs).nodup_iff).mpr hnd
  have hsvsp : " " ∉ (Evaluator.mkE expr vs).vars := by
    intro hc
    exact hsp ((List.perm_insertionSort _ vs).subset hc)
  constructor
  · rw [eval_lines, List.length_map, List.length_range, hsvlen]
  · intro i hi j hj
    refine ⟨mkLine pyeval (Evaluator.mkE expr vs).expression
      (Evaluator.mkE expr vs).expressionInternal
      (Evaluator.mkE expr vs).vars i, ?_, ?_⟩
    · rw [eval_lines, List.getElem?_map, List.getElem?_range
        (show i < 2 ^ (Evaluator.mkE expr vs).vars.length by
          rw [hsvlen]; exact hi)]
      rfl
    · rw [mkLine_lookup pyeval (Evaluator.mkE expr vs).expression
        (Evaluator.mkE expr vs).expressionInternal _ hsvnd hsvsp i j hj]
      congr 1
      congr 1
      rw [hsvlen]
      exact if_congr (and_shift_ne_zero i (vs.length - j - 1)) rfl rfl

theorem claim3_eval_rows_witness :
    (["B", "A"] : List String).Nodup ∧ " " ∉ (["B", "A"] : List String) ∧
    ((Evaluator.eval (fun _ _ _ => "")
        (Evaluator.mkE "A AND B" ["B", "A"])).lines.length =
      2 ^ (["B", "A"] : List String).length ∧
    ∀ i, i < 2 ^ (["B", "A"] : List String).length →
      ∀ j, ∀ hj : j < (Evaluator.mkE "A AND B" ["B", "A"]).vars.length,
        ∃ row,
          (Evaluator.eval (fun _ _ _ => "")
            (Evaluator.mkE "A AND B" ["B", "A"])).lines[i]? = some row ∧
          row.lookup ((Evaluator.mkE "A AND B" ["B", "A"]).vars[j]) =
            some (Cell.num
              (if Nat.testBit i ((["B", "A"] : List String).length - j - 1)
                then 1 else 0))) :=
  ⟨by decide, by decide,
    claim3_eval_rows (fun _ _ _ => "") "A AND B" ["B", "A"]
      (by decide) (by decide)⟩

/-- C5: the evaluator's variable list is the ascending sorted ordering of
the supplied names — it is a permutation of them, it is sorted, and it is
the same whatever shuffled order the names arrive in. -/
theorem claim5_sorted_vars (expr : String) (vs vs' : List String)
    (hperm : vs.Perm vs') :
    (Evaluator.mkE expr vs).vars.Perm vs ∧
    List.Sorted (fun a b : String => a ≤ b) (Evaluator.mkE expr vs).vars ∧
    (Evaluator.mkE expr vs').vars = (Evaluator.mkE expr vs).vars := by
  refine ⟨List.perm_insertionSort _ vs, List.sorted_insertionSort _ vs, ?_⟩
  haveI : IsAntisymm String (fun a b : String => a ≤ b) :=
    ⟨fun a b h1 h2 => le_antisymm h1 h2⟩
  exact List.eq_of_perm_of_sorted
    ((List.perm_insertionSort _ vs').trans
      (hperm.symm.trans (List.perm_insertionSort _ vs).symm))
    (List.sorted_insertionSort _ vs')
    (List.sorted_insertionSort _ vs)

theorem claim5_sorted_vars_witness :
    (["B", "A"] : List String).Perm ["A", "B"] ∧
    ((Evaluator.mkE "A" ["B", "A"]).vars.Perm ["B", "A"] ∧
     List.Sorted (fun a b : String => a ≤ b)
       (Evaluator.mkE "A" ["B", "A"]).vars ∧
     (Evaluator.mkE "A" ["A", "B"]).vars =
       (Evaluator.mkE "A" ["B", "A"]).vars) :=
  ⟨by decide, claim5_sorted_vars "A" ["B", "A"] ["A", "B"] (by decide)⟩

/-- C9: `eval()` is deterministic and idempotent — a second call rebuilds
the row sequence from scratch and leaves exactly the same rows, whatever
rows were stored before, with no accumulation. -/
theorem claim9_eval_idempotent
    (pyeval : String → String → List (String × Nat) → String)
    (expr : String) (vs : List String)
    (ls : List (List (String × Cell))) :
    (Evaluator.eval pyeval (Evaluator.eval pyeval
        (Evaluator.mkE expr vs))).lines =
      (Evaluator.eval pyeval (Evaluator.mkE expr vs)).lines ∧
    (Evaluator.eval pyeval
        { Evaluator.mkE expr vs with lines := ls }).lines =
      (Evaluator.eval pyeval (Evaluator.mkE expr vs)).lines ∧
    (Evaluator.eval pyeval (Evaluator.mkE expr vs)).lines.length =
      2 ^ (Evaluator.mkE expr vs).vars.length := by
  refine ⟨?_, ?_, ?_⟩
  · rw [eval_lines, eval_lines]
    rfl
  · rw [eval_lines, eval_lines]
  · rw [eval_lines, List.length_map, List.length_range]

/-- C10: the evaluator evaluates `expression` with every `OR` replaced by
`or`, then `NOT` by `not`, then `AND` by `and` — including occurrences
inside variable names — so a variable whose name contains `OR`, `NOT` or
`AND` never occurs (even as a substring) in the evaluated text, and can
therefore never be looked up under its supplied name. -/
theorem claim10_keyword_mangling (expr : String) (vs : List String)
    (v : String)
    (hv : OccursIn "OR" v ∨ OccursIn "NOT" v ∨ OccursIn "AND" v) :
    (Evaluator.mkE expr vs).expressionInternal =
      pyReplace (pyReplace (pyReplace expr "OR" "or") "NOT" "not")
        "AND" "and" ∧
    ¬ OccursIn v (Evaluator.mkE expr vs).expressionInternal := by
  refine ⟨rfl, ?_⟩
  intro hcon
  have hd3 : (Evaluator.mkE expr vs).expressionInternal.data =
      replaceAll "AND".data "and".data
        (replaceAll "NOT".data "not".data
          (replaceAll "OR".data "or".data expr.data)) := rfl
  rw [OccursIn, hd3] at hcon
  have h1 : ¬ "OR".data <:+: replaceAll "OR".data "or".data expr.data :=
    not_infix_self_replaceAll "OR".data "or".data (by decide) (by decide)
      (by decide) expr.data.length expr.data (le_refl _)
  have h2 : ¬ "OR".data <:+: replaceAll "NOT".data "not".data
      (replaceAll "OR".data "or".data expr.data) :=
    not_infix_replaceAll "NOT".data "not".data "OR".data (by decide)
      (by decide) _ _ (le_refl _) h1
  have h3 : ¬ "OR".data <:+: replaceAll "AND".data "and".data
      (replaceAll "NOT".data "not".data
        (replaceAll "OR".data "or".data expr.data)) :=
    not_infix_replaceAll "AND".data "and".data "OR".data (by decide)
      (by decide) _ _ (le_refl _) h2
  have h4 : ¬ "NOT".data <:+: replaceAll "NOT".data "not".data
      (replaceAll "OR".data "or".data expr.data) :=
    not_infix_self_replaceAll "NOT".data "not".data (by decide) (by decide)
      (by decide) _ _ (le_refl _)
  have h5 : ¬ "NOT".data <:+: replaceAll "AND".data "and".data
      (replaceAll "NOT".data "not".data
        (replaceAll "OR".data "or".data expr.data)) :=
    not_infix_replaceAll "AND".data "and".data "NOT".data (by decide)
      (by decide) _ _ (le_refl _) h4
  have h6 : ¬ "AND".data <:+: replaceAll "AND".data "and".data
      (replaceAll "NOT".data "not".data
        (replaceAll "OR".data "or".data expr.data)) :=
    not_infix_self_replaceAll "AND".data "and".data (by decide) (by decide)
      (by decide) _ _ (le_refl _)
  rcases hv with h | h | h
  · exact h3 (List.IsInfix.trans h hcon)
  · exact h5 (List.IsInfix.trans h hcon)
  · exact h6 (List.IsInfix.trans h hcon)

theorem claim10_keyword_mangling_witness :
    (OccursIn "OR" "XOR" ∨ OccursIn "NOT" "XOR" ∨ OccursIn "AND" "XOR") ∧
    ((Evaluator.mkE "XOR AND B" ["XOR", "B"]).expressionInternal =
      pyReplace (pyReplace (pyReplace "XOR AND B" "OR" "or") "NOT" "not")
        "AND" "and" ∧
     ¬ OccursIn "XOR"
       (Evaluator.mkE "XOR AND B" ["XOR", "B"]).expressionInternal) :=
  ⟨Or.inl (by decide),
    claim10_keyword_mangling "XOR AND B" ["XOR", "B"] "XOR"
      (Or.inl (by decide))⟩

end Truth
